import Mathlib

/-!
Verification of the `unic-locale` locale-identifier core.

The repository composes an external Subtags collaborator (language, script,
region, variants — `unic_langid_impl::LanguageIdentifier`) with an
`ExtensionsMap` holding BCP-47 extension sequences, and exposes parsing,
canonical serialization, field mutation and range-aware matching on the
resulting `Locale` type (`unic-locale-impl/src/lib.rs`).

The embedding below works on byte strings (`Str := List Nat`), mirroring the
Rust API which consumes `&[u8]`.  The `Locale` layer (`matches`,
`from_parts`, `canonicalize`, `Display`, the field mutators and the
conversions) is translated directly from `src/unic-locale-impl/src/lib.rs`.
The `parser`, `extensions` and `errors` modules and the Subtags collaborator
are not part of the shown sources; their definitions are modelled from the
specification (each such definition carries a doc comment saying so).
-/

namespace UnicLocale

/-- Byte strings: the Rust code parses `&[u8]`. -/
abbrev Str := List Nat

/-- ASCII uppercase letter byte. -/
def isUpperB (b : Nat) : Bool := 65 ≤ b && b ≤ 90

/-- ASCII lowercase letter byte. -/
def isLowerB (b : Nat) : Bool := 97 ≤ b && b ≤ 122

/-- ASCII letter byte. -/
def isAlphaB (b : Nat) : Bool := isUpperB b || isLowerB b

/-- ASCII digit byte. -/
def isDigitB (b : Nat) : Bool := 48 ≤ b && b ≤ 57

/-- ASCII alphanumeric byte. -/
def isAlnumB (b : Nat) : Bool := isAlphaB b || isDigitB b

/-- Lowercase one ASCII byte. -/
def lowerB (b : Nat) : Nat := if 65 ≤ b && b ≤ 90 then b + 32 else b

/-- Uppercase one ASCII byte. -/
def upperB (b : Nat) : Nat := if 97 ≤ b && b ≤ 122 then b - 32 else b

/-- Lowercase a byte string. -/
def lowerS (s : Str) : Str := s.map lowerB

/-- The byte 45 is the tag separator `-`. -/
def SEP : Nat := 45

/-- Convert a Lean string literal to the byte string the parser consumes
(used only to state concrete examples). -/
def str (s : String) : Str := s.toList.map Char.toNat

/-! ### The tag tokenizer

Modelled from the spec: the parser module (not among the shown sources)
"split[s] the tail into segments on the separator"; serialization joins
segments with the separator.  We define both directions on byte lists. -/

/-- Modelled from the spec: split a byte string into `-`-separated segments
(the missing parser module's tokenization step). -/
def splitDash : Str → List Str
  | [] => [[]]
  | b :: r =>
    if b = SEP then [] :: splitDash r
    else
      match splitDash r with
      | s :: ss => (b :: s) :: ss
      | [] => [[b]]

/-- Modelled from the spec: join segments with the tag separator
(serialization's counterpart to `splitDash`). -/
def joinDash : List Str → Str
  | [] => []
  | [p] => p
  | p :: r => p ++ SEP :: joinDash r

/-! ### Sorted-insert helpers

The missing `extensions` module keeps each sub-collection canonically
ordered (the spec's serialization section: attributes, keywords, transform
fields, other letters and private tokens are all emitted in a fixed sorted
order; the collections behave like ordered maps/sets).  `insBy` inserts
into a strictly sorted list, reporting a duplicate as `none`; `insSkip`
silently drops a duplicate (used for the variants of the Subtags layer,
which are kept sorted and deduplicated). -/

/-- Insert `x` into a list kept strictly sorted by `ltk`; `none` on a
duplicate (an element `eqk`-equal to `x`). -/
def insBy (ltk : α → α → Bool) (eqk : α → α → Bool) (x : α) : List α → Option (List α)
  | [] => some [x]
  | y :: r =>
    if ltk y x then (insBy ltk eqk x r).map (y :: ·)
    else if eqk y x then none
    else some (x :: y :: r)

/-- Insert `x` into a list kept strictly sorted by `ltk`, skipping a
duplicate. -/
def insSkip (ltk : α → α → Bool) (x : α) [DecidableEq α] : List α → List α
  | [] => [x]
  | y :: r =>
    if ltk y x then y :: insSkip ltk x r
    else if y = x then y :: r
    else x :: y :: r

/-- Strict lexicographic order on byte strings. -/
def strLt : Str → Str → Bool
  | [], [] => false
  | [], _ :: _ => true
  | _ :: _, [] => false
  | a :: as, b :: bs => a < b || (a == b && strLt as bs)

/-! ### The Subtags collaborator (`unic_langid_impl::LanguageIdentifier`)

Modelled from the spec: the Subtags component is consumed through the
narrow interface of §6 (parse with remainder, from_parts,
accessors/mutators, matches, to_string).  Its data model is the spec's §3:
language, script, region and ordered unique variants, with `und` as the
empty language. -/

/-- Modelled from the spec: the Subtags collaborator's value — language
(`none` = `und`), script, region, ordered unique variants. -/
structure LanguageIdentifier where
  language : Option Str := none
  script : Option Str := none
  region : Option Str := none
  variants : List Str := []
deriving DecidableEq

instance : Inhabited LanguageIdentifier := ⟨{}⟩

/-- The bytes of `und`. -/
def UND : Str := [117, 110, 100]

/-- A language subtag: 2–8 ASCII letters. -/
def isLanguageStr (s : Str) : Bool := 2 ≤ s.length && s.length ≤ 8 && s.all isAlphaB

/-- A script subtag: exactly 4 ASCII letters. -/
def isScriptStr (s : Str) : Bool := s.length == 4 && s.all isAlphaB

/-- Canonical script case: first byte uppercased, rest lowercased. -/
def normScript (s : Str) : Str :=
  match s with
  | [] => []
  | c :: r => upperB c :: lowerS r

/-- A region subtag: 2 ASCII letters or 3 ASCII digits. -/
def isRegionStr (s : Str) : Bool :=
  (s.length == 2 && s.all isAlphaB) || (s.length == 3 && s.all isDigitB)

/-- Canonical region case: uppercased (digits are unaffected). -/
def normRegion (s : Str) : Str := s.map upperB

/-- A variant subtag: 5–8 alphanumerics, or 4 starting with a digit. -/
def isVariantStr (s : Str) : Bool :=
  s.all isAlnumB &&
    ((5 ≤ s.length && s.length ≤ 8) ||
      (s.length == 4 && (match s with | c :: _ => isDigitB c | [] => false)))

/-- Modelled from the spec: the Subtags collaborator's error kind,
wrapped unchanged by the Locale layer. -/
inductive LanguageIdentifierError
  | invalidLanguage
  | invalidSubtag
deriving DecidableEq

/-- Parse/validate a language subtag; `und` denotes the missing language. -/
def parseLanguage (seg : Str) : Except LanguageIdentifierError (Option Str) :=
  let l := lowerS seg
  if l = UND then .ok none
  else if isLanguageStr l then .ok (some l)
  else .error .invalidLanguage

/-- A single-letter segment: starts a new extension sequence. -/
def isExtStart : Str → Bool
  | [b] => isAlphaB b
  | _ => false

/-- Modelled from the spec: the Subtags collaborator's tail parser, shared
between the strict top-level parse (`strict = true`: a segment fitting no
slot fails) and the greedy parse used inside the transform extension
(`strict = false`: the first unfitting segment ends the run).  `canS`/`canR`
record whether a script/region subtag may still appear; variants are kept
sorted and deduplicated. -/
def langTail (strict : Bool) (canS canR : Bool) (lang scr reg : Option Str)
    (vars : List Str) : List Str →
    Except LanguageIdentifierError (LanguageIdentifier × List Str)
  | [] => .ok (⟨lang, scr, reg, vars⟩, [])
  | seg :: rest =>
    if canS && isScriptStr seg then
      langTail strict false true lang (some (normScript seg)) reg vars rest
    else if canR && isRegionStr seg then
      langTail strict false false lang scr (some (normRegion seg)) vars rest
    else if isVariantStr seg then
      langTail strict false false lang scr reg (insSkip strLt (lowerS seg) vars) rest
    else if strict && !(isExtStart seg) then .error .invalidSubtag
    else .ok (⟨lang, scr, reg, vars⟩, seg :: rest)

/-- Modelled from the spec: the Subtags collaborator's
`parse(bytes) -> (Subtags, remainder)` on the segment list; the first
segment must be a language, later segments fill script/region/variants
until the first single-letter segment (the extension tail). -/
def parseLangIdSegs : List Str →
    Except LanguageIdentifierError (LanguageIdentifier × List Str)
  | [] => .error .invalidLanguage
  | l :: rest =>
    match parseLanguage l with
    | .error e => .error e
    | .ok lang => langTail true true true lang none none [] rest

/-- Modelled from the spec: inside the transform extension "the first run
of segments that parses successfully as a Subtags value is consumed as the
transformed-from tag"; no language at the front means no embedded tag. -/
def parseTLangSegs (segs : List Str) : Option LanguageIdentifier × List Str :=
  match segs with
  | [] => (none, [])
  | l :: rest =>
    match parseLanguage l with
    | .error _ => (none, segs)
    | .ok lang =>
      match langTail false true true lang none none [] rest with
      | .ok (lid, rem) => (some lid, rem)
      | .error _ => (none, segs)

/-- Serialize the language slot (`und` when absent). -/
def serLang : Option Str → Str
  | none => UND
  | some l => l

/-- Modelled from the spec: the Subtags collaborator's canonical segment
sequence — language, then script, region and variants when present. -/
def LanguageIdentifier.toSegs (lid : LanguageIdentifier) : List Str :=
  serLang lid.language :: (lid.script.toList ++ lid.region.toList ++ lid.variants)

/-- Modelled from the spec: the Subtags collaborator's `to_string`. -/
def LanguageIdentifier.to_string (lid : LanguageIdentifier) : Str :=
  joinDash lid.toSegs

/-- Modelled from the spec: one field of the range matcher — a flagged side
with the field omitted is a wildcard. -/
def subtagMatches (a b : Option Str) (ar br : Bool) : Bool :=
  (ar && a.isNone) || (br && b.isNone) || a == b

/-- Modelled from the spec: the variants slot of the range matcher. -/
def variantsMatches (a b : List Str) (ar br : Bool) : Bool :=
  (ar && a.isEmpty) || (br && b.isEmpty) || a == b

/-- Modelled from the spec: the Subtags collaborator's range-aware matcher
`base_matches(a, b, a_is_range, b_is_range)`. -/
def LanguageIdentifier.matches (a b : LanguageIdentifier) (ar br : Bool) : Bool :=
  subtagMatches a.language b.language ar br &&
  subtagMatches a.script b.script ar br &&
  subtagMatches a.region b.region ar br &&
  variantsMatches a.variants b.variants ar br

/-- Modelled from the spec: validate and canonically order a variants list
(shared by `from_parts` and `set_variants`). -/
def validateVariants (vs : List Str) : Except LanguageIdentifierError (List Str) :=
  vs.foldlM
    (fun acc v =>
      if isVariantStr v then pure (insSkip strLt (lowerS v) acc)
      else throw LanguageIdentifierError.invalidSubtag) ([] : List Str)

/-- Modelled from the spec: the Subtags collaborator's `from_parts`,
validating each part with the same rules as the parser. -/
def LanguageIdentifier.from_parts (l s r : Option Str) (vs : List Str) :
    Except LanguageIdentifierError LanguageIdentifier := do
  let lang ← match l with
    | none => pure none
    | some ls => parseLanguage ls
  let scr ← match s with
    | none => pure (none : Option Str)
    | some ss =>
      if isScriptStr ss then pure (some (normScript ss))
      else throw LanguageIdentifierError.invalidSubtag
  let reg ← match r with
    | none => pure (none : Option Str)
    | some rs =>
      if isRegionStr rs then pure (some (normRegion rs))
      else throw LanguageIdentifierError.invalidSubtag
  let vars ← validateVariants vs
  pure ⟨lang, scr, reg, vars⟩

/-- Modelled from the spec: collaborator mutator for the language slot. -/
def LanguageIdentifier.set_language (lid : LanguageIdentifier) (s : Str) :
    Except LanguageIdentifierError LanguageIdentifier :=
  match parseLanguage s with
  | .ok l => .ok { lid with language := l }
  | .error e => .error e

/-- Modelled from the spec: collaborator clear for the language slot. -/
def LanguageIdentifier.clear_language (lid : LanguageIdentifier) : LanguageIdentifier :=
  { lid with language := none }

/-- Modelled from the spec: collaborator mutator for the script slot. -/
def LanguageIdentifier.set_script (lid : LanguageIdentifier) (s : Str) :
    Except LanguageIdentifierError LanguageIdentifier :=
  if isScriptStr s then .ok { lid with script := some (normScript s) }
  else .error .invalidSubtag

/-- Modelled from the spec: collaborator clear for the script slot. -/
def LanguageIdentifier.clear_script (lid : LanguageIdentifier) : LanguageIdentifier :=
  { lid with script := none }

/-- Modelled from the spec: collaborator mutator for the region slot. -/
def LanguageIdentifier.set_region (lid : LanguageIdentifier) (s : Str) :
    Except LanguageIdentifierError LanguageIdentifier :=
  if isRegionStr s then .ok { lid with region := some (normRegion s) }
  else .error .invalidSubtag

/-- Modelled from the spec: collaborator clear for the region slot. -/
def LanguageIdentifier.clear_region (lid : LanguageIdentifier) : LanguageIdentifier :=
  { lid with region := none }

/-- Modelled from the spec: collaborator mutator for the variants slot. -/
def LanguageIdentifier.set_variants (lid : LanguageIdentifier) (vs : List Str) :
    Except LanguageIdentifierError LanguageIdentifier :=
  match validateVariants vs with
  | .ok vars => .ok { lid with variants := vars }
  | .error e => .error e

/-- Modelled from the spec: collaborator clear for the variants slot. -/
def LanguageIdentifier.clear_variants (lid : LanguageIdentifier) : LanguageIdentifier :=
  { lid with variants := [] }

/-! ### The ExtensionsMap (the missing `extensions` module)

Modelled from the spec §3/§4.2: one parsed instance of each extension
kind — unicode keyword/value pairs plus standalone attributes, an optional
transform made of an embedded Subtags tag and field/value pairs, a sorted
unique private-use token set, and a map from remaining single letters to
verbatim value sequences.  Sub-collections are kept canonically sorted,
mirroring the ordered maps of the source. -/

/-- Modelled from the spec: the closed enumeration of unicode-extension
keywords ("hour-cycle, calendar, numbering-system"); the test suite uses
`UnicodeExtensionKey::HourCycle`. -/
inductive UnicodeExtensionKey
  | calendar
  | hourCycle
  | numberingSystem
deriving DecidableEq

/-- The two-byte keyword of each unicode-extension key
(`ca`, `hc`, `nu`). -/
def ukeyStr : UnicodeExtensionKey → Str
  | .calendar => [99, 97]
  | .hourCycle => [104, 99]
  | .numberingSystem => [110, 117]

/-- Recognize a (case-normalized) unicode-extension keyword segment;
unknown keys are rejected by the caller. -/
def ukeyFromStr (s : Str) : Option UnicodeExtensionKey :=
  if lowerS s = [99, 97] then some .calendar
  else if lowerS s = [104, 99] then some .hourCycle
  else if lowerS s = [110, 117] then some .numberingSystem
  else none

/-- Serialization rank of a unicode key (ascending keyword order). -/
def ukRank : UnicodeExtensionKey → Nat
  | .calendar => 0
  | .hourCycle => 1
  | .numberingSystem => 2

/-- A unicode-extension value or attribute: 3–8 alphanumerics. -/
def isUValue (s : Str) : Bool := 3 ≤ s.length && s.length ≤ 8 && s.all isAlnumB

/-- A private-use token: 1–8 alphanumerics. -/
def isPrivToken (s : Str) : Bool := 1 ≤ s.length && s.length ≤ 8 && s.all isAlnumB

/-- A transform field key: a letter followed by a digit (e.g. `m0`). -/
def isTKey : Str → Bool
  | [a, d] => isAlphaB a && isDigitB d
  | _ => false

/-- A single-letter segment naming a recognized extension kind
(`u`, `t` or `x`); inside the private-use run only these end the run. -/
def isRecStart : Str → Bool
  | [b] => lowerB b == 117 || lowerB b == 116 || lowerB b == 120
  | _ => false

/-- Modelled from the spec: the transform extension — optional embedded
Subtags tag plus field/value pairs sorted by key. -/
structure Transform where
  tlang : Option LanguageIdentifier := none
  tfields : List (Str × Str) := []
deriving DecidableEq

instance : Inhabited Transform := ⟨{}⟩

/-- No transformed-from tag and no fields. -/
def Transform.isEmptyT (t : Transform) : Bool := t.tlang.isNone && t.tfields.isEmpty

/-- Modelled from the spec: the canonical in-memory extension store.  The
`private` field of the source is called `priv` here (`private` is reserved
in Lean). -/
structure ExtensionsMap where
  unicode : List (UnicodeExtensionKey × Option Str) := []
  attributes : List Str := []
  transform : Transform := {}
  priv : List Str := []
  other : List (Nat × List Str) := []
deriving DecidableEq

instance : Inhabited ExtensionsMap := ⟨{}⟩

/-- `is_empty`: true iff no extension sequence is present. -/
def ExtensionsMap.is_empty (m : ExtensionsMap) : Bool :=
  m.unicode.isEmpty && m.attributes.isEmpty && m.transform.isEmptyT &&
    m.priv.isEmpty && m.other.isEmpty

/-- Modelled from the spec: the single `ParserError` kind, with enough
context to report the offending segment. -/
inductive ParserError
  | invalidExtension
  | invalidSubtag
  | duplicateExtension
  | duplicateKeyword
  | duplicateAttribute
  | duplicatePrivate
  | duplicateField
deriving DecidableEq

/-- Modelled from the spec: the error taxonomy of the `errors` module —
a wrapped Subtags error or a parser error. -/
inductive LocaleError
  | langId (e : LanguageIdentifierError)
  | parser (e : ParserError)
deriving DecidableEq

deriving instance DecidableEq for Except

/-- Modelled from the spec: parse the unicode (`u`) run — a known 2-byte
keyword optionally takes the next segment as its value, other segments are
standalone attributes; duplicates fail. -/
def parseURun (ks : List (UnicodeExtensionKey × Option Str)) (ats : List Str) :
    List Str →
    Except ParserError (List (UnicodeExtensionKey × Option Str) × List Str)
  | [] => .ok (ks, ats)
  | seg :: rest =>
    match ukeyFromStr seg with
    | some k =>
      match rest with
      | v :: rest2 =>
        if isUValue v then
          match insBy (fun p q => ukRank p.1 < ukRank q.1) (fun p q => p.1 == q.1)
              (k, some (lowerS v)) ks with
          | some ks2 => parseURun ks2 ats rest2
          | none => .error .duplicateKeyword
        else
          match insBy (fun p q => ukRank p.1 < ukRank q.1) (fun p q => p.1 == q.1)
              (k, none) ks with
          | some ks2 => parseURun ks2 ats (v :: rest2)
          | none => .error .duplicateKeyword
      | [] =>
        match insBy (fun p q => ukRank p.1 < ukRank q.1) (fun p q => p.1 == q.1)
            (k, none) ks with
        | some ks2 => .ok (ks2, ats)
        | none => .error .duplicateKeyword
    | none =>
      if isUValue seg then
        match insBy strLt (· == ·) (lowerS seg) ats with
        | some ats2 => parseURun ks ats2 rest
        | none => .error .duplicateAttribute
      else .error .invalidSubtag

/-- Modelled from the spec: parse the transform field/value pairs
(2-character key + one value segment, repeatable, duplicates fail). -/
def parseTFields (fs : List (Str × Str)) : List Str → Except ParserError (List (Str × Str))
  | [] => .ok fs
  | [_] => .error .invalidSubtag
  | k :: v :: rest2 =>
    if isTKey k then
      if isUValue v then
        match insBy (fun p q => strLt p.1 q.1) (fun p q => p.1 == q.1)
            (lowerS k, lowerS v) fs with
        | some fs2 => parseTFields fs2 rest2
        | none => .error .duplicateField
      else .error .invalidSubtag
    else .error .invalidSubtag

/-- Modelled from the spec: parse the transform (`t`) run — greedy embedded
Subtags tag first, then field/value pairs. -/
def parseTransformRun (run : List Str) : Except ParserError Transform :=
  let (tl, rest) := parseTLangSegs run
  match parseTFields [] rest with
  | .ok fs => .ok ⟨tl, fs⟩
  | .error e => .error e

/-- Modelled from the spec: parse the private-use (`x`) run — every token
1–8 alphanumerics, case-normalized, duplicates rejected. -/
def parsePrivRun (ps : List Str) : List Str → Except ParserError (List Str)
  | [] => .ok ps
  | seg :: rest =>
    if isPrivToken seg then
      match insBy strLt (· == ·) (lowerS seg) ps with
      | some ps2 => parsePrivRun ps2 rest
      | none => .error .duplicatePrivate
    else .error .invalidSubtag

/-- Insert one `other`-letter sequence, keeping letters sorted;
a duplicate letter is a parse error. -/
def insOther (c : Nat) (vals : List Str) (l : List (Nat × List Str)) :
    Option (List (Nat × List Str)) :=
  insBy (fun p q => p.1 < q.1) (fun p q => p.1 == q.1) (c, vals) l

/-- Modelled from the spec §4.1: scan the extension tail left to right; a
single alphabetic segment starts a sequence keyed by that (lowercased)
letter, whose run extends to the next single-letter segment (for `x`: to
the next recognized extension letter); duplicate letters fail; empty input
yields the empty map.  `fuel` bounds the number of sequences (one unit per
sequence; any value at least the segment count is enough, and the result
is fuel-independent beyond that). -/
def parseExtSegs : Nat → List Nat → ExtensionsMap → List Str → Except ParserError ExtensionsMap
  | _, _, m, [] => .ok m
  | 0, _, _, _ :: _ => .error .invalidExtension
  | fuel + 1, seen, m, [b] :: rest =>
    if isAlphaB b then
      if seen.contains (lowerB b) then .error .duplicateExtension
      else if lowerB b = 117 then
        match parseURun m.unicode m.attributes (rest.takeWhile (fun s => !(isExtStart s))) with
        | .ok (ks, ats) =>
          parseExtSegs fuel (lowerB b :: seen) { m with unicode := ks, attributes := ats }
            (rest.dropWhile (fun s => !(isExtStart s)))
        | .error e => .error e
      else if lowerB b = 116 then
        match parseTransformRun (rest.takeWhile (fun s => !(isExtStart s))) with
        | .ok t =>
          parseExtSegs fuel (lowerB b :: seen) { m with transform := t }
            (rest.dropWhile (fun s => !(isExtStart s)))
        | .error e => .error e
      else if lowerB b = 120 then
        match parsePrivRun m.priv (rest.takeWhile (fun s => !(isRecStart s))) with
        | .ok ps =>
          parseExtSegs fuel (lowerB b :: seen) { m with priv := ps }
            (rest.dropWhile (fun s => !(isRecStart s)))
        | .error e => .error e
      else
        match insOther (lowerB b) (rest.takeWhile (fun s => !(isExtStart s))) m.other with
        | some o2 =>
          parseExtSegs fuel (lowerB b :: seen) { m with other := o2 }
            (rest.dropWhile (fun s => !(isExtStart s)))
        | none => .error .duplicateExtension
    else .error .invalidExtension
  | _ + 1, _, _, ([] :: _) => .error .invalidExtension
  | _ + 1, _, _, ((_ :: _ :: _) :: _) => .error .invalidExtension

/-! ### Serialization (spec §4.2)

Canonical emission order: `t`, `u`, the remaining other letters ascending,
`x` last; within `u` attributes first then keyword/value pairs; within `t`
the transformed-from tag then fields sorted by key. -/

/-- The transform run's segments: embedded tag, then field pairs. -/
def Transform.toSegs (t : Transform) : List Str :=
  (match t.tlang with
   | none => []
   | some lid => lid.toSegs) ++
  (t.tfields.map (fun p => [p.1, p.2])).flatten

/-- The unicode run's segments: attributes first, then keyword/value
pairs sorted by keyword. -/
def uniSegs (ks : List (UnicodeExtensionKey × Option Str)) (ats : List Str) : List Str :=
  ats ++ (ks.map (fun p =>
    match p.2 with
    | none => [ukeyStr p.1]
    | some v => [ukeyStr p.1, v])).flatten

/-- The (letter, run) list of a map, in canonical letter order. -/
def ExtensionsMap.toSeqs (m : ExtensionsMap) : List (Nat × List Str) :=
  (if m.transform.isEmptyT then [] else [(116, m.transform.toSegs)]) ++
  (if m.unicode.isEmpty && m.attributes.isEmpty then []
   else [(117, uniSegs m.unicode m.attributes)]) ++
  m.other ++
  (if m.priv.isEmpty then [] else [(120, m.priv)])

/-- All extension segments in emission order. -/
def ExtensionsMap.toSegs (m : ExtensionsMap) : List Str :=
  (m.toSeqs.map (fun p => [p.1] :: p.2)).flatten

/-- The extension tail's byte string: each segment preceded by the
separator; the empty map serializes to the empty string. -/
def ExtensionsMap.to_string (m : ExtensionsMap) : Str :=
  (m.toSegs.map (fun seg => SEP :: seg)).flatten

/-! ### The Locale layer (`src/unic-locale-impl/src/lib.rs`) -/

/-- `Locale`: a Subtags value plus an ExtensionsMap
(`lib.rs`, lines 12–16). -/
structure Locale where
  langid : LanguageIdentifier := {}
  extensions : ExtensionsMap := {}
deriving DecidableEq

instance : Inhabited Locale := ⟨{}⟩

/-- `parse_locale` of the parser module (modelled from the spec's two-phase
data flow): Subtags head first, extension tail second, all-or-nothing. -/
def parse_locale (s : Str) : Except LocaleError Locale :=
  match parseLangIdSegs (splitDash s) with
  | .error e => .error (.langId e)
  | .ok (lid, rest) =>
    match parseExtSegs rest.length [] {} rest with
    | .error e => .error (.parser e)
    | .ok m => .ok ⟨lid, m⟩

/-- `Locale::from_bytes` (`lib.rs`, lines 27–29). -/
def Locale.from_bytes (s : Str) : Except LocaleError Locale := parse_locale s

/-- `Locale::from_parts` (`lib.rs`, lines 31–43): build the Subtags value
from the parts, default the extensions when absent. -/
def Locale.from_parts (l s r : Option Str) (vs : List Str)
    (e : Option ExtensionsMap) : Except LocaleError Locale :=
  match LanguageIdentifier.from_parts l s r vs with
  | .error er => .error (.langId er)
  | .ok lid => .ok ⟨lid, e.getD {}⟩

/-- `Locale::matches` (`lib.rs`, lines 63–75): false when either side has
private-use content, else delegate to the Subtags matcher. -/
def Locale.matches (a b : Locale) (self_as_range other_as_range : Bool) : Bool :=
  if !a.extensions.priv.isEmpty || !b.extensions.priv.isEmpty then false
  else a.langid.matches b.langid self_as_range other_as_range

/-- `Display for Locale` (`lib.rs`, lines 179–183): langid string directly
followed by the extensions string. -/
def Locale.to_string (loc : Locale) : Str :=
  loc.langid.to_string ++ loc.extensions.to_string

/-- `canonicalize` (`lib.rs`, lines 185–188): parse then re-serialize. -/
def canonicalize (s : Str) : Except LocaleError Str :=
  match Locale.from_bytes s with
  | .error e => .error e
  | .ok loc => .ok loc.to_string

/-- `Locale::set_language` (`lib.rs`, lines 81–83); in-place mutation is
modelled as (result, updated locale), the locale untouched on error. -/
def Locale.set_language (loc : Locale) (s : Str) : Except LocaleError Unit × Locale :=
  match loc.langid.set_language s with
  | .ok lid => (.ok (), { loc with langid := lid })
  | .error e => (.error (.langId e), loc)

/-- `Locale::clear_language` (`lib.rs`, lines 85–87). -/
def Locale.clear_language (loc : Locale) : Locale :=
  { loc with langid := loc.langid.clear_language }

/-- `Locale::set_script` (`lib.rs`, lines 93–95). -/
def Locale.set_script (loc : Locale) (s : Str) : Except LocaleError Unit × Locale :=
  match loc.langid.set_script s with
  | .ok lid => (.ok (), { loc with langid := lid })
  | .error e => (.error (.langId e), loc)

/-- `Locale::clear_script` (`lib.rs`, lines 97–99). -/
def Locale.clear_script (loc : Locale) : Locale :=
  { loc with langid := loc.langid.clear_script }

/-- `Locale::set_region` (`lib.rs`, lines 105–107). -/
def Locale.set_region (loc : Locale) (s : Str) : Except LocaleError Unit × Locale :=
  match loc.langid.set_region s with
  | .ok lid => (.ok (), { loc with langid := lid })
  | .error e => (.error (.langId e), loc)

/-- `Locale::clear_region` (`lib.rs`, lines 109–111). -/
def Locale.clear_region (loc : Locale) : Locale :=
  { loc with langid := loc.langid.clear_region }

/-- `Locale::set_variants` (`lib.rs`, lines 117–122). -/
def Locale.set_variants (loc : Locale) (vs : List Str) : Except LocaleError Unit × Locale :=
  match loc.langid.set_variants vs with
  | .ok lid => (.ok (), { loc with langid := lid })
  | .error e => (.error (.langId e), loc)

/-- `Locale::clear_variants` (`lib.rs`, lines 124–126). -/
def Locale.clear_variants (loc : Locale) : Locale :=
  { loc with langid := loc.langid.clear_variants }

/-- `Locale::add_likely_subtags` (`lib.rs`, lines 128–131): delegate to the
collaborator's expansion `f` (opaque likely-subtags data), returning its
flag and updating only the langid. -/
def Locale.add_likely_subtags (f : LanguageIdentifier → Bool × LanguageIdentifier)
    (loc : Locale) : Bool × Locale :=
  ((f loc.langid).1, { loc with langid := (f loc.langid).2 })

/-- `Locale::remove_likely_subtags` (`lib.rs`, lines 133–136): delegate to
the collaborator's contraction `f`. -/
def Locale.remove_likely_subtags (f : LanguageIdentifier → Bool × LanguageIdentifier)
    (loc : Locale) : Bool × Locale :=
  ((f loc.langid).1, { loc with langid := (f loc.langid).2 })

/-- `From<LanguageIdentifier> for Locale` (`lib.rs`, lines 151–158). -/
def Locale.fromLangId (lid : LanguageIdentifier) : Locale := ⟨lid, {}⟩

/-- `Into<LanguageIdentifier> for Locale` (`lib.rs`, lines 160–164). -/
def Locale.intoLangId (loc : Locale) : LanguageIdentifier := loc.langid

/-- The keyword/value segments of a unicode map (the part of `uniSegs`
after the attributes). -/
def kwSegs (ks : List (UnicodeExtensionKey × Option Str)) : List Str :=
  (ks.map (fun p =>
    match p.2 with
    | none => [ukeyStr p.1]
    | some v => [ukeyStr p.1, v])).flatten

/-- The field/value segments of a transform. -/
def fieldSegs (fs : List (Str × Str)) : List Str :=
  (fs.map (fun p => [p.1, p.2])).flatten

/-- The segments of the embedded transformed-from tag. -/
def tlangSegs : Option LanguageIdentifier → List Str
  | none => []
  | some lid => lid.toSegs

/-- The emitted segments of a run of `other`-letter sequences. -/
def osSegs (os : List (Nat × List Str)) : List Str :=
  (os.map (fun p => [p.1] :: p.2)).flatten

/-- What may legally follow a Subtags head: nothing, or a segment that fits
no Subtags slot (and, for the strict top-level parse, announces an
extension sequence). -/
def stopCond (strict : Bool) (rest : List Str) : Prop :=
  rest = [] ∨
    ∃ h t, rest = h :: t ∧ isScriptStr h = false ∧ isRegionStr h = false ∧
      isVariantStr h = false ∧ (strict = true → isExtStart h = true)

/-! ### Canonical-shape predicates

`parse_locale` only ever produces values of the following shape (validated,
case-normalized, canonically sorted); serializing such a value and parsing
it back is the identity.  These are the invariants of the ordered maps of
the `extensions` module and of the Subtags collaborator. -/

/-- Bool-valued strict pairwise ordering (all-pairs form). -/
def pairwiseB (lt : α → α → Bool) : List α → Bool
  | [] => true
  | x :: r => r.all (lt x) && pairwiseB lt r

/-- Canonical language slot: validated, lowercased, not `und`. -/
def canLanguage : Option Str → Bool
  | none => true
  | some l => isLanguageStr l && lowerS l == l && !(l == UND)

/-- Canonical script slot: validated, title-cased. -/
def canScript : Option Str → Bool
  | none => true
  | some s => isScriptStr s && normScript s == s

/-- Canonical region slot: validated, uppercased. -/
def canRegion : Option Str → Bool
  | none => true
  | some r => isRegionStr r && normRegion r == r

/-- Canonical variants: validated, lowercased, strictly sorted. -/
def canVariants (vs : List Str) : Bool :=
  vs.all (fun v => isVariantStr v && lowerS v == v) && pairwiseB strLt vs

/-- Canonical Subtags value. -/
def LanguageIdentifier.canonical (lid : LanguageIdentifier) : Bool :=
  canLanguage lid.language && canScript lid.script && canRegion lid.region &&
    canVariants lid.variants

/-- Canonical unicode keyword map: valid lowercase values, keys strictly
sorted by rank. -/
def canUnicode (ks : List (UnicodeExtensionKey × Option Str)) : Bool :=
  ks.all (fun p =>
    match p.2 with
    | none => true
    | some v => isUValue v && lowerS v == v) &&
  pairwiseB (fun p q => ukRank p.1 < ukRank q.1) ks

/-- Canonical attribute set: valid lowercase attributes, strictly sorted. -/
def canAttrs (ats : List Str) : Bool :=
  ats.all (fun a => isUValue a && lowerS a == a) && pairwiseB strLt ats

/-- Canonical transform fields: valid lowercase key/value pairs, strictly
sorted by key. -/
def canTFields (fs : List (Str × Str)) : Bool :=
  fs.all (fun p =>
    isTKey p.1 && lowerS p.1 == p.1 && isUValue p.2 && lowerS p.2 == p.2) &&
  pairwiseB (fun p q => strLt p.1 q.1) fs

/-- Canonical transform sequence. -/
def Transform.canonical (t : Transform) : Bool :=
  (match t.tlang with
   | none => true
   | some lid => lid.canonical) && canTFields t.tfields

/-- Canonical private-use set: valid lowercase tokens, none of them a lone
recognized extension letter, strictly sorted. -/
def canPriv (ps : List Str) : Bool :=
  ps.all (fun t => isPrivToken t && lowerS t == t && !(isRecStart t)) &&
    pairwiseB strLt ps

/-- A canonical `other`-extension value: separator-free and not itself a
single-letter extension introducer. -/
def canOtherVal (v : Str) : Bool := !(isExtStart v) && !(v.contains SEP)

/-- Canonical `other` map: lowercase letters outside `u`/`t`/`x`, strictly
sorted, values separator-free and non-introducing. -/
def canOther (os : List (Nat × List Str)) : Bool :=
  os.all (fun p =>
    isLowerB p.1 && !(p.1 == 117) && !(p.1 == 116) && !(p.1 == 120) &&
      p.2.all canOtherVal) &&
  pairwiseB (fun p q => p.1 < q.1) os

/-- Canonical extension store. -/
def ExtensionsMap.canonical (m : ExtensionsMap) : Bool :=
  canUnicode m.unicode && canAttrs m.attributes && m.transform.canonical &&
    canPriv m.priv && canOther m.other

/-- Canonical locale value: exactly the shapes `parse_locale` produces. -/
def Locale.canonical (loc : Locale) : Bool :=
  loc.langid.canonical && loc.extensions.canonical

/-- Serialization rank of an extension letter: `t` first, `u` second,
other letters ascending, `x` last. -/
def extRank (c : Nat) : Nat :=
  if c = 116 then 0 else if c = 117 then 1 else if c = 120 then 400 else 2 + c

/-- The letters of a map's emitted sequences, in emission order. -/
def ExtensionsMap.seqLetters (m : ExtensionsMap) : List Nat :=
  m.toSeqs.map (fun p => p.1)

theorem isAlphaB_iff (b : Nat) :
    isAlphaB b = true ↔ ((65 ≤ b ∧ b ≤ 90) ∨ (97 ≤ b ∧ b ≤ 122)) := by
  unfold isAlphaB isUpperB isLowerB
  simp

theorem isDigitB_iff (b : Nat) : isDigitB b = true ↔ (48 ≤ b ∧ b ≤ 57) := by
  unfold isDigitB
  simp

theorem isAlnumB_iff (b : Nat) :
    isAlnumB b = true ↔
      ((65 ≤ b ∧ b ≤ 90) ∨ (97 ≤ b ∧ b ≤ 122) ∨ (48 ≤ b ∧ b ≤ 57)) := by
  unfold isAlnumB
  rw [Bool.or_eq_true, isAlphaB_iff, isDigitB_iff]
  tauto

theorem lowerB_hi {b : Nat} (h1 : 65 ≤ b) (h2 : b ≤ 90) : lowerB b = b + 32 := by
  unfold lowerB
  split
  · rfl
  · next hc =>
    simp only [Bool.and_eq_true, decide_eq_true_eq] at hc
    omega

theorem lowerB_lo {b : Nat} (h : ¬(65 ≤ b ∧ b ≤ 90)) : lowerB b = b := by
  unfold lowerB
  split
  · next hc =>
    simp only [Bool.and_eq_true, decide_eq_true_eq] at hc
    omega
  · rfl

theorem upperB_hi {b : Nat} (h1 : 97 ≤ b) (h2 : b ≤ 122) : upperB b = b - 32 := by
  unfold upperB
  split
  · rfl
  · next hc =>
    simp only [Bool.and_eq_true, decide_eq_true_eq] at hc
    omega

theorem upperB_lo {b : Nat} (h : ¬(97 ≤ b ∧ b ≤ 122)) : upperB b = b := by
  unfold upperB
  split
  · next hc =>
    simp only [Bool.and_eq_true, decide_eq_true_eq] at hc
    omega
  · rfl

theorem lowerB_idem (b : Nat) : lowerB (lowerB b) = lowerB b := by
  by_cases h : 65 ≤ b ∧ b ≤ 90
  · rw [lowerB_hi h.1 h.2, lowerB_lo (by omega)]
  · rw [lowerB_lo h, lowerB_lo h]

theorem lowerS_idem (s : Str) : lowerS (lowerS s) = lowerS s := by
  unfold lowerS
  rw [List.map_map]
  apply List.map_congr_left
  intro b _
  exact lowerB_idem b

theorem upperB_idem (b : Nat) : upperB (upperB b) = upperB b := by
  by_cases h : 97 ≤ b ∧ b ≤ 122
  · rw [upperB_hi h.1 h.2, upperB_lo (by omega)]
  · rw [upperB_lo h, upperB_lo h]

theorem lowerB_alpha {b : Nat} (h : isAlphaB b = true) : isAlphaB (lowerB b) = true := by
  rw [isAlphaB_iff] at h
  by_cases hc : 65 ≤ b ∧ b ≤ 90
  · rw [lowerB_hi hc.1 hc.2, isAlphaB_iff]; omega
  · rw [lowerB_lo hc, isAlphaB_iff]; omega

theorem upperB_alpha {b : Nat} (h : isAlphaB b = true) : isAlphaB (upperB b) = true := by
  rw [isAlphaB_iff] at h
  by_cases hc : 97 ≤ b ∧ b ≤ 122
  · rw [upperB_hi hc.1 hc.2, isAlphaB_iff]; omega
  · rw [upperB_lo hc, isAlphaB_iff]; omega

theorem lowerB_alnum {b : Nat} (h : isAlnumB b = true) : isAlnumB (lowerB b) = true := by
  rw [isAlnumB_iff] at h
  by_cases hc : 65 ≤ b ∧ b ≤ 90
  · rw [lowerB_hi hc.1 hc.2, isAlnumB_iff]; omega
  · rw [lowerB_lo hc, isAlnumB_iff]; omega

theorem alnum_ne_sep {b : Nat} (h : isAlnumB b = true) : b ≠ SEP := by
  rw [isAlnumB_iff] at h
  unfold SEP
  omega

theorem alpha_ne_sep {b : Nat} (h : isAlphaB b = true) : b ≠ SEP := by
  rw [isAlphaB_iff] at h
  unfold SEP
  omega

theorem lowerB_fix_of_lower {b : Nat} (h : isLowerB b = true) : lowerB b = b := by
  unfold isLowerB at h
  simp only [Bool.and_eq_true, decide_eq_true_eq] at h
  exact lowerB_lo (by omega)

theorem lowerB_fix_of_digit {b : Nat} (h : isDigitB b = true) : lowerB b = b := by
  rw [isDigitB_iff] at h
  exact lowerB_lo (by omega)

theorem splitDash_ne_nil (s : Str) : splitDash s ≠ [] := by
  induction s with
  | nil => simp [splitDash]
  | cons b r ih =>
    unfold splitDash
    split
    · simp
    · split
      · simp
      · simp

theorem splitDash_append {p : Str} (hp : SEP ∉ p) {s : Str} {h : Str} {t : List Str}
    (hs : splitDash s = h :: t) : splitDash (p ++ s) = (p ++ h) :: t := by
  induction p with
  | nil => simpa using hs
  | cons b bs ih =>
    have hb : b ≠ SEP := by
      intro hb; exact hp (hb ▸ List.mem_cons_self b bs)
    have hbs : SEP ∉ bs := fun hm => hp (List.mem_cons_of_mem b hm)
    unfold splitDash
    simp only [List.cons_append]
    rw [if_neg hb]
    rw [ih hbs]

theorem splitDash_joinDash (parts : List Str) (hne : parts ≠ [])
    (hnd : ∀ p ∈ parts, SEP ∉ p) : splitDash (joinDash parts) = parts := by
  induction parts with
  | nil => exact absurd rfl hne
  | cons p rest ih =>
    cases rest with
    | nil =>
      have hp : SEP ∉ p := hnd p (List.mem_cons_self p [])
      unfold joinDash
      have : splitDash ([] : Str) = [[]] := rfl
      have := splitDash_append (s := ([] : Str)) hp this
      simpa using this
    | cons q qs =>
      have hp : SEP ∉ p := hnd p (List.mem_cons_self p _)
      have hrest : ∀ x ∈ q :: qs, SEP ∉ x := fun x hx => hnd x (List.mem_cons_of_mem p hx)
      have ihr : splitDash (joinDash (q :: qs)) = q :: qs := ih (by simp) hrest
      show splitDash (p ++ SEP :: joinDash (q :: qs)) = p :: q :: qs
      have hsep : splitDash (SEP :: joinDash (q :: qs)) = [] :: (q :: qs) := by
        unfold splitDash
        rw [if_pos rfl, ihr]
      have := splitDash_append hp hsep
      simpa using this

theorem splitDash_no_sep (s : Str) : ∀ seg ∈ splitDash s, SEP ∉ seg := by
  induction s with
  | nil =>
    intro seg hseg
    simp only [splitDash] at hseg
    simp only [List.mem_singleton] at hseg
    subst hseg; simp
  | cons b r ih =>
    intro seg hseg
    unfold splitDash at hseg
    by_cases hb : b = SEP
    · rw [if_pos hb] at hseg
      rcases List.mem_cons.mp hseg with h | h
      · subst h; simp
      · exact ih seg h
    · rw [if_neg hb] at hseg
      rcases hsplit : splitDash r with _ | ⟨s0, ss⟩
      · exact absurd hsplit (splitDash_ne_nil r)
      · rw [hsplit] at hseg
        rcases List.mem_cons.mp hseg with h | h
        · subst h
          intro hm
          rcases List.mem_cons.mp hm with h | h
          · exact hb h.symm
          · exact ih s0 (hsplit ▸ List.mem_cons_self s0 ss) h
        · exact ih seg (hsplit ▸ List.mem_cons_of_mem s0 h)

/-! ## Claim theorems (Locale layer) -/

theorem priv_ne_nil_isEmpty {l : List Str} (h : l ≠ []) : l.isEmpty = false := by
  cases l with
  | nil => exact absurd rfl h
  | cons x xs => rfl

/-- C1: for all locales `a`, `b` and flags, if either side's private-use
extension set is non-empty then `a.matches(b, r1, r2)` is false, regardless
of the base tag and of the flags (`Locale::matches`, lib.rs lines 63–75). -/
theorem C1_matches_private_false (a b : Locale) (r1 r2 : Bool)
    (h : a.extensions.priv ≠ [] ∨ b.extensions.priv ≠ []) :
    a.matches b r1 r2 = false := by
  unfold Locale.matches
  rw [if_pos]
  rcases h with h | h
  · rw [priv_ne_nil_isEmpty h]
    simp
  · rw [priv_ne_nil_isEmpty h]
    simp

/-- Witness for C1 at a concrete input (`und-x-a` against `und`). -/
theorem C1_matches_private_false_witness :
    ((⟨{}, { priv := [[97]] }⟩ : Locale).extensions.priv ≠ [] ∨
        ({} : Locale).extensions.priv ≠ []) ∧
      Locale.matches ⟨{}, { priv := [[97]] }⟩ {} true true = false :=
  ⟨Or.inl (by decide),
    C1_matches_private_false _ _ _ _ (Or.inl (by decide))⟩

/-- C2: with both private-use sets empty, `matches` equals the Subtags
matcher on the two langids, and the result never depends on the unicode,
transform or other-letter extension content of either side. -/
theorem C2_matches_delegates (a b : Locale) (r1 r2 : Bool)
    (h1 : a.extensions.priv = []) (h2 : b.extensions.priv = []) :
    a.matches b r1 r2 = a.langid.matches b.langid r1 r2 ∧
    (∀ e1 e2 : ExtensionsMap, e1.priv = a.extensions.priv →
      e2.priv = b.extensions.priv →
      Locale.matches ⟨a.langid, e1⟩ ⟨b.langid, e2⟩ r1 r2 = a.matches b r1 r2) := by
  constructor
  · unfold Locale.matches
    rw [h1, h2]
    simp
  · intro e1 e2 he1 he2
    unfold Locale.matches
    rw [he1, he2]

/-- Witness for C2: `en-US` matches `en-US-u-hc-h24` under non-range flags
(the unicode extension is ignored), matching the repository test. -/
theorem C2_matches_delegates_witness :
    (⟨⟨some [101, 110], none, some [85, 83], []⟩, {}⟩ : Locale).extensions.priv = [] ∧
    (⟨⟨some [101, 110], none, some [85, 83], []⟩,
        { unicode := [(.hourCycle, some [104, 50, 52])] }⟩ : Locale).extensions.priv = [] ∧
    Locale.matches ⟨⟨some [101, 110], none, some [85, 83], []⟩, {}⟩
        ⟨⟨some [101, 110], none, some [85, 83], []⟩,
          { unicode := [(.hourCycle, some [104, 50, 52])] }⟩ false false =
      LanguageIdentifier.matches ⟨some [101, 110], none, some [85, 83], []⟩
        ⟨some [101, 110], none, some [85, 83], []⟩ false false :=
  ⟨rfl, rfl,
    (C2_matches_delegates _ _ false false rfl rfl).1⟩

/-- C3: `canonicalize` succeeds exactly when `Locale::from_bytes` succeeds,
propagates the error unchanged, and on success returns the parsed locale's
serialization — hence `parse(s).to_string() == canonicalize(s)` for every
valid text (`canonicalize`, lib.rs lines 185–188). -/
theorem C3_canonicalize (s : Str) :
    (canonicalize s).isOk = (Locale.from_bytes s).isOk ∧
    (∀ e, Locale.from_bytes s = .error e → canonicalize s = .error e) ∧
    (∀ loc, Locale.from_bytes s = .ok loc → canonicalize s = .ok loc.to_string) := by
  unfold canonicalize
  cases h : Locale.from_bytes s with
  | ok loc =>
    refine ⟨rfl, ?_, ?_⟩
    · intro e he
      cases he
    · intro loc2 hl
      cases hl
      rfl
  | error e =>
    refine ⟨rfl, ?_, ?_⟩
    · intro e2 he
      cases he
      rfl
    · intro loc hl
      cases hl

/-- Witness for C3 at `en-US`. -/
theorem C3_canonicalize_witness :
    canonicalize (str "en-US") =
      .ok (Locale.to_string ⟨⟨some [101, 110], none, some [85, 83], []⟩, {}⟩) :=
  (C3_canonicalize (str "en-US")).2.2 _ (by decide)

/-- C8: `Locale::from_parts` (lib.rs lines 31–43) succeeds exactly when the
Subtags collaborator's `from_parts` succeeds on the same parts, propagates
the collaborator error unchanged, and on success installs the supplied
extensions map, or the empty one when absent. -/
theorem C8_from_parts (l s r : Option Str) (vs : List Str) (e : Option ExtensionsMap) :
    (Locale.from_parts l s r vs e).isOk = (LanguageIdentifier.from_parts l s r vs).isOk ∧
    (∀ er, LanguageIdentifier.from_parts l s r vs = .error er →
      Locale.from_parts l s r vs e = .error (.langId er)) ∧
    (∀ lid, LanguageIdentifier.from_parts l s r vs = .ok lid →
      Locale.from_parts l s r vs e = .ok ⟨lid, e.getD {}⟩) ∧
    (∀ lid em, LanguageIdentifier.from_parts l s r vs = .ok lid → e = some em →
      Locale.from_parts l s r vs e = .ok ⟨lid, em⟩) ∧
    (∀ lid, LanguageIdentifier.from_parts l s r vs = .ok lid → e = none →
      Locale.from_parts l s r vs e = .ok ⟨lid, {}⟩) := by
  unfold Locale.from_parts
  cases h : LanguageIdentifier.from_parts l s r vs with
  | ok lid =>
    refine ⟨rfl, ?_, ?_, ?_, ?_⟩
    · intro er he; cases he
    · intro lid2 hl; cases hl; rfl
    · intro lid2 em hl hem; cases hl; cases hem; rfl
    · intro lid2 hl hem; cases hl; cases hem; rfl
  | error er =>
    refine ⟨rfl, ?_, ?_, ?_, ?_⟩
    · intro er2 he; cases he; rfl
    · intro lid2 hl; cases hl
    · intro lid2 em hl _; cases hl
    · intro lid2 hl _; cases hl

/-- Witness for C8 at language `en` with no extensions supplied. -/
theorem C8_from_parts_witness :
    Locale.from_parts (some [101, 110]) none none [] none =
      .ok ⟨⟨some [101, 110], none, none, []⟩, {}⟩ :=
  (C8_from_parts _ _ _ _ _).2.2.1 _ (by decide)

/-- C9: every field-level mutator of `Locale` (lib.rs lines 81–136) leaves
the extensions untouched — on success and on failure — and each `set_*`
returns the collaborator's error unchanged when the collaborator rejects
the input; the likely-subtags operations (over an arbitrary collaborator
function) also leave the extensions untouched. -/
theorem C9_mutators_frame (loc : Locale) (s : Str) (vs : List Str)
    (f g : LanguageIdentifier → Bool × LanguageIdentifier) :
    (loc.set_language s).2.extensions = loc.extensions ∧
    loc.clear_language.extensions = loc.extensions ∧
    (loc.set_script s).2.extensions = loc.extensions ∧
    loc.clear_script.extensions = loc.extensions ∧
    (loc.set_region s).2.extensions = loc.extensions ∧
    loc.clear_region.extensions = loc.extensions ∧
    (loc.set_variants vs).2.extensions = loc.extensions ∧
    loc.clear_variants.extensions = loc.extensions ∧
    (Locale.add_likely_subtags f loc).2.extensions = loc.extensions ∧
    (Locale.remove_likely_subtags g loc).2.extensions = loc.extensions ∧
    (∀ e, loc.langid.set_language s = .error e →
      (loc.set_language s).1 = .error (.langId e)) ∧
    (∀ e, loc.langid.set_script s = .error e →
      (loc.set_script s).1 = .error (.langId e)) ∧
    (∀ e, loc.langid.set_region s = .error e →
      (loc.set_region s).1 = .error (.langId e)) ∧
    (∀ e, loc.langid.set_variants vs = .error e →
      (loc.set_variants vs).1 = .error (.langId e)) := by
  refine ⟨?_, rfl, ?_, rfl, ?_, rfl, ?_, rfl, rfl, rfl, ?_, ?_, ?_, ?_⟩
  · unfold Locale.set_language
    cases loc.langid.set_language s <;> rfl
  · unfold Locale.set_script
    cases loc.langid.set_script s <;> rfl
  · unfold Locale.set_region
    cases loc.langid.set_region s <;> rfl
  · unfold Locale.set_variants
    cases loc.langid.set_variants vs <;> rfl
  · intro e he
    unfold Locale.set_language
    rw [he]
  · intro e he
    unfold Locale.set_script
    rw [he]
  · intro e he
    unfold Locale.set_region
    rw [he]
  · intro e he
    unfold Locale.set_variants
    rw [he]

/-- Witness for C9: a rejected `set_language` (`!` is not a language)
leaves the extensions of `und-x-a` untouched and surfaces the
collaborator's error unchanged. -/
theorem C9_mutators_frame_witness :
    (Locale.set_language ⟨{}, { priv := [[97]] }⟩ [33]).2.extensions =
        ({ priv := [[97]] } : ExtensionsMap) ∧
      (Locale.set_language ⟨{}, { priv := [[97]] }⟩ [33]).1 =
        .error (.langId .invalidLanguage) :=
  ⟨(C9_mutators_frame ⟨{}, { priv := [[97]] }⟩ [33] [] (fun l => (false, l))
      (fun l => (false, l))).1,
    (C9_mutators_frame ⟨{}, { priv := [[97]] }⟩ [33] [] (fun l => (false, l))
      (fun l => (false, l))).2.2.2.2.2.2.2.2.2.2.1 _ (by decide)⟩

/-- C10: `From<LanguageIdentifier>` gives a locale with empty extensions,
`Into<LanguageIdentifier>` returns the `langid` field and discards all
extension content; the round trip langid → locale → langid is the
identity, while locale → langid → locale erases the extensions (lib.rs
lines 151–164); concretely, `en-US-u-hc-h12` converts to the language
identifier `en-US`. -/
theorem C10_conversions (lid : LanguageIdentifier) (loc : Locale) :
    (Locale.fromLangId lid).extensions = ({} : ExtensionsMap) ∧
    (Locale.fromLangId lid).langid = lid ∧
    Locale.intoLangId loc = loc.langid ∧
    Locale.intoLangId (Locale.fromLangId lid) = lid ∧
    Locale.fromLangId (Locale.intoLangId loc) = ⟨loc.langid, {}⟩ ∧
    (parse_locale (str "en-US-u-hc-h12")).map
        (fun l => (Locale.intoLangId l).to_string) = .ok (str "en-US") :=
  ⟨rfl, rfl, rfl, rfl, rfl, by decide⟩

/-! ### Serialization structure lemmas -/

theorem listIsEmpty_iff {α : Type} (l : List α) : l.isEmpty = true ↔ l = [] := by
  cases l <;> simp

theorem joinDash_cons (p : Str) (r : List Str) (h : r ≠ []) :
    joinDash (p :: r) = p ++ SEP :: joinDash r := by
  cases r with
  | nil => exact absurd rfl h
  | cons q qs => rfl

theorem flatten_sepCons (l : List Str) (h : l ≠ []) :
    (l.map (fun seg => SEP :: seg)).flatten = SEP :: joinDash l := by
  induction l with
  | nil => exact absurd rfl h
  | cons p r ih =>
    cases r with
    | nil => simp [joinDash]
    | cons q qs =>
      have ihr := ih (by simp)
      rw [joinDash_cons p (q :: qs) (by simp)]
      show (SEP :: p) ++ (List.map (fun seg => SEP :: seg) (q :: qs)).flatten =
        SEP :: (p ++ SEP :: joinDash (q :: qs))
      rw [ihr]
      simp

theorem joinDash_append (a b : List Str) (ha : a ≠ []) :
    joinDash (a ++ b) = joinDash a ++ (b.map (fun seg => SEP :: seg)).flatten := by
  induction a with
  | nil => exact absurd rfl ha
  | cons p r ih =>
    cases r with
    | nil =>
      cases b with
      | nil => simp [joinDash]
      | cons q qs =>
        simp only [List.nil_append, List.singleton_append]
        rw [joinDash_cons p (q :: qs) (by simp)]
        rw [flatten_sepCons (q :: qs) (by simp)]
        rfl
    | cons p2 r2 =>
      have hr : p2 :: r2 ≠ [] := by simp
      rw [List.cons_append, joinDash_cons p ((p2 :: r2) ++ b) (by simp),
        joinDash_cons p (p2 :: r2) hr, ih hr]
      simp

theorem toSeqs_elem_ne_nil (p : Nat × List Str) : ([p.1] :: p.2 : List Str) ≠ [] := by
  simp

theorem toSegs_nil_iff (m : ExtensionsMap) : m.toSegs = [] ↔ m.toSeqs = [] := by
  unfold ExtensionsMap.toSegs
  cases h : m.toSeqs with
  | nil => simp
  | cons p r =>
    simp only [List.map_cons, List.flatten_cons]
    constructor
    · intro hh
      rcases List.append_eq_nil.mp hh with ⟨h1, _⟩
      cases h1
    · intro hh
      cases hh

theorem is_empty_toSeqs (m : ExtensionsMap) : m.is_empty = true ↔ m.toSeqs = [] := by
  unfold ExtensionsMap.is_empty ExtensionsMap.toSeqs
  constructor
  · intro h
    simp only [Bool.and_eq_true] at h
    obtain ⟨⟨⟨⟨hu, ha⟩, ht⟩, hp⟩, ho⟩ := h
    rw [if_pos ht, if_pos (by simp [hu, ha])]
    rw [if_pos hp, (listIsEmpty_iff m.other).mp ho]
    rfl
  · intro h
    by_cases ht : m.transform.isEmptyT = true
    · rw [if_pos ht] at h
      by_cases hua : (m.unicode.isEmpty && m.attributes.isEmpty) = true
      · rw [if_pos hua] at h
        simp only [List.nil_append] at h
        rcases List.append_eq_nil.mp h with ⟨ho, hp⟩
        simp only [Bool.and_eq_true] at hua
        rw [hua.1, hua.2, ht, ho]
        by_cases hpp : m.priv.isEmpty = true
        · rw [hpp]; rfl
        · rw [if_neg hpp] at hp; cases hp
      · rw [if_neg hua] at h
        simp only [List.nil_append] at h
        cases h
    · rw [if_neg ht] at h
      cases h

/-- C5: a locale's serialization is the Subtags serialization followed by
the extensions serialization; the empty map serializes to the empty string
so a locale with empty extensions prints exactly as its Subtags value, and
a non-empty map contributes a tag separator followed by its segments
(`Display for Locale`, lib.rs lines 179–183). -/
theorem C5_display (loc : Locale) :
    loc.to_string = loc.langid.to_string ++ loc.extensions.to_string ∧
    (loc.extensions.is_empty = true →
      loc.extensions.to_string = [] ∧ loc.to_string = loc.langid.to_string) ∧
    (loc.extensions.is_empty = false →
      loc.to_string =
        loc.langid.to_string ++ SEP :: joinDash loc.extensions.toSegs) := by
  refine ⟨rfl, ?_, ?_⟩
  · intro h
    have hseqs := (is_empty_toSeqs loc.extensions).mp h
    have hsegs : loc.extensions.toSegs = [] := (toSegs_nil_iff loc.extensions).mpr hseqs
    have hstr : loc.extensions.to_string = [] := by
      unfold ExtensionsMap.to_string
      rw [hsegs]
      rfl
    refine ⟨hstr, ?_⟩
    show loc.langid.to_string ++ loc.extensions.to_string = loc.langid.to_string
    rw [hstr, List.append_nil]
  · intro h
    have hseqs : loc.extensions.toSeqs ≠ [] := by
      intro hh
      rw [(is_empty_toSeqs loc.extensions).mpr hh] at h
      cases h
    have hsegs : loc.extensions.toSegs ≠ [] := by
      intro hh
      exact hseqs ((toSegs_nil_iff loc.extensions).mp hh)
    show loc.langid.to_string ++ loc.extensions.to_string = _
    unfold ExtensionsMap.to_string
    rw [flatten_sepCons _ hsegs]

/-- Witness for C5: a non-empty map contributes the separator;
`und` + `x-a` prints as `und-x-a`. -/
theorem C5_display_witness :
    ExtensionsMap.is_empty ({ priv := [[97]] } : ExtensionsMap) = false ∧
    Locale.to_string ⟨{}, { priv := [[97]] }⟩ =
      LanguageIdentifier.to_string {} ++
        SEP :: joinDash (ExtensionsMap.toSegs { priv := [[97]] }) :=
  ⟨by decide, (C5_display ⟨{}, { priv := [[97]] }⟩).2.2 (by decide)⟩

/-! ### Emission order of extension sequences -/
theorem pairwiseB_iff (lt : α → α → Bool) (l : List α) :
    pairwiseB lt l = true ↔ List.Pairwise (fun a b => lt a b = true) l := by
  induction l with
  | nil => simp [pairwiseB]
  | cons x r ih =>
    unfold pairwiseB
    rw [Bool.and_eq_true, List.pairwise_cons, ih, List.all_eq_true]

theorem extRank_t : extRank 116 = 0 := rfl

theorem extRank_u : extRank 117 = 1 := rfl

theorem extRank_x : extRank 120 = 400 := rfl

theorem extRank_other {c : Nat} (hl : isLowerB c = true)
    (h7 : c ≠ 117) (h6 : c ≠ 116) (h0 : c ≠ 120) :
    extRank c = 2 + c ∧ 99 ≤ extRank c ∧ extRank c ≤ 124 := by
  unfold isLowerB at hl
  simp only [Bool.and_eq_true, decide_eq_true_eq] at hl
  unfold extRank
  rw [if_neg h6, if_neg h7, if_neg h0]
  omega

theorem canOther_letter_facts {os : List (Nat × List Str)} (h : canOther os = true) :
    (∀ p ∈ os, isLowerB p.1 = true ∧ p.1 ≠ 117 ∧ p.1 ≠ 116 ∧ p.1 ≠ 120) ∧
      List.Pairwise (fun p q : Nat × List Str => p.1 < q.1) os := by
  unfold canOther at h
  rw [Bool.and_eq_true, pairwiseB_iff, List.all_eq_true] at h
  obtain ⟨h1, h2⟩ := h
  constructor
  · intro p hp
    have hh := h1 p hp
    simp only [Bool.and_eq_true] at hh
    refine ⟨hh.1.1.1.1, ?_, ?_, ?_⟩
    · intro he
      rw [he] at hh
      have := hh.1.1.1.2
      simp at this
    · intro he
      rw [he] at hh
      have := hh.1.1.2
      simp at this
    · intro he
      rw [he] at hh
      have := hh.1.2
      simp at this
  · exact h2.imp (fun hab => by simpa using hab)

theorem rank_lt : (fun a b => extRank a < extRank b) = fun a b : Nat => extRank a < extRank b := rfl

theorem pairwise_rank_append {A B : List Nat} (K : Nat)
    (hA : List.Pairwise (fun a b => extRank a < extRank b) A)
    (hB : List.Pairwise (fun a b => extRank a < extRank b) B)
    (hAK : ∀ a ∈ A, extRank a < K) (hKB : ∀ b ∈ B, K ≤ extRank b) :
    List.Pairwise (fun a b => extRank a < extRank b) (A ++ B) := by
  rw [List.pairwise_append]
  exact ⟨hA, hB, fun a ha b hb => lt_of_lt_of_le (hAK a ha) (hKB b hb)⟩

theorem seqLetters_eq (m : ExtensionsMap) :
    m.seqLetters =
      (if m.transform.isEmptyT then [] else [116]) ++
        ((if m.unicode.isEmpty && m.attributes.isEmpty then [] else [117]) ++
          (m.other.map (fun p => p.1) ++ (if m.priv.isEmpty then [] else [120]))) := by
  unfold ExtensionsMap.seqLetters ExtensionsMap.toSeqs
  by_cases ht : m.transform.isEmptyT <;>
    by_cases hu : (m.unicode.isEmpty && m.attributes.isEmpty) = true <;>
      by_cases hp : m.priv.isEmpty <;>
        simp [ht, hu, hp]

theorem mem_ite_singleton {c : Prop} [Decidable c] {x a : Nat}
    (h : a ∈ (if c then ([] : List Nat) else [x])) : a = x := by
  by_cases hc : c
  · rw [if_pos hc] at h
    cases h
  · rw [if_neg hc] at h
    exact List.mem_singleton.mp h

theorem pairwise_ite_singleton {c : Prop} [Decidable c] {x : Nat} :
    List.Pairwise (fun a b => extRank a < extRank b) (if c then ([] : List Nat) else [x]) := by
  by_cases hc : c
  · rw [if_pos hc]
    exact List.Pairwise.nil
  · rw [if_neg hc]
    exact List.pairwise_singleton _ _

/-- The letters of the emitted sequences are strictly increasing in the
canonical rank (`t` before `u` before other letters ascending before `x`),
whenever the `other` map is canonically stored. -/
theorem seqLetters_sorted (m : ExtensionsMap) (h : canOther m.other = true) :
    List.Pairwise (fun a b => extRank a < extRank b) m.seqLetters := by
  obtain ⟨hfacts, hpw⟩ := canOther_letter_facts h
  have hothL : List.Pairwise (fun a b => extRank a < extRank b)
      (m.other.map (fun p => p.1)) := by
    rw [List.pairwise_map]
    refine List.Pairwise.imp_of_mem ?_ hpw
    intro p q hp hq hlt
    obtain ⟨hlp, hp7, hp6, hp0⟩ := hfacts p hp
    obtain ⟨hlq, hq7, hq6, hq0⟩ := hfacts q hq
    obtain ⟨hep, _, _⟩ := extRank_other hlp hp7 hp6 hp0
    obtain ⟨heq, _, _⟩ := extRank_other hlq hq7 hq6 hq0
    omega
  have hothLo : ∀ a ∈ m.other.map (fun p => p.1), 99 ≤ extRank a ∧ extRank a ≤ 124 := by
    intro a ha
    rw [List.mem_map] at ha
    obtain ⟨p, hp, rfl⟩ := ha
    obtain ⟨hlp, hp7, hp6, hp0⟩ := hfacts p hp
    obtain ⟨_, hlo, hhi⟩ := extRank_other hlp hp7 hp6 hp0
    exact ⟨hlo, hhi⟩
  rw [seqLetters_eq]
  have hOX : List.Pairwise (fun a b => extRank a < extRank b)
      (m.other.map (fun p => p.1) ++ (if m.priv.isEmpty then [] else [120])) := by
    refine pairwise_rank_append 125 hothL pairwise_ite_singleton ?_ ?_
    · intro a ha
      have := (hothLo a ha).2
      omega
    · intro b hb
      rw [mem_ite_singleton hb, extRank_x]
      omega
  have hUOX : List.Pairwise (fun a b => extRank a < extRank b)
      ((if m.unicode.isEmpty && m.attributes.isEmpty then [] else [117]) ++
        (m.other.map (fun p => p.1) ++ (if m.priv.isEmpty then [] else [120]))) := by
    refine pairwise_rank_append 2 pairwise_ite_singleton hOX ?_ ?_
    · intro a ha
      rw [mem_ite_singleton ha, extRank_u]
      omega
    · intro b hb
      rcases List.mem_append.mp hb with hb | hb
      · have := (hothLo b hb).1
        omega
      · rw [mem_ite_singleton hb, extRank_x]
        omega
  refine pairwise_rank_append 1 pairwise_ite_singleton hUOX ?_ ?_
  · intro a ha
    rw [mem_ite_singleton ha, extRank_t]
    omega
  · intro b hb
    rcases List.mem_append.mp hb with hb | hb
    · rw [mem_ite_singleton hb]
      decide
    · rcases List.mem_append.mp hb with hb | hb
      · have := (hothLo b hb).1
        omega
      · rw [mem_ite_singleton hb, extRank_x]
        omega

/-! ### Order and insertion lemmas -/

theorem strLt_trans : ∀ a b c : Str, strLt a b = true → strLt b c = true → strLt a c = true
  | [], [], _, h, _ => by cases h
  | [], _ :: _, [], _, h => by cases h
  | [], _ :: _, _ :: _, _, _ => rfl
  | _ :: _, [], _, h, _ => by cases h
  | _ :: _, _ :: _, [], _, h => by cases h
  | a :: as, b :: bs, c :: cs, h1, h2 => by
    unfold strLt at h1 h2 ⊢
    simp only [Bool.or_eq_true, Bool.and_eq_true, decide_eq_true_eq, beq_iff_eq] at h1 h2 ⊢
    rcases h1 with h1 | ⟨h1e, h1r⟩
    · rcases h2 with h2 | ⟨h2e, h2r⟩
      · exact Or.inl (Nat.lt_trans h1 h2)
      · exact Or.inl (h2e ▸ h1)
    · rcases h2 with h2 | ⟨h2e, h2r⟩
      · exact Or.inl (h1e ▸ h2)
      · exact Or.inr ⟨h1e.trans h2e, strLt_trans as bs cs h1r h2r⟩

theorem strLt_irrefl : ∀ a : Str, strLt a a = false
  | [] => rfl
  | a :: as => by
    unfold strLt
    simp only [Bool.or_eq_false_iff, Bool.and_eq_false_iff]
    refine ⟨by simp, Or.inr (strLt_irrefl as)⟩

theorem strLt_total : ∀ a b : Str, strLt a b = false → a ≠ b → strLt b a = true
  | [], [], _, hne => absurd rfl hne
  | [], _ :: _, h, _ => by cases h
  | _ :: _, [], _, _ => rfl
  | a :: as, b :: bs, h, hne => by
    unfold strLt at h ⊢
    simp only [Bool.or_eq_false_iff, Bool.and_eq_false_iff, Bool.or_eq_true,
      Bool.and_eq_true, decide_eq_true_eq, decide_eq_false_iff_not, beq_iff_eq,
      beq_eq_false_iff_ne, ne_eq] at h ⊢
    obtain ⟨hlt, hr⟩ := h
    by_cases he : a = b
    · subst he
      rcases hr with hr | hr
      · exact absurd rfl hr
      · refine Or.inr ⟨rfl, strLt_total as bs hr ?_⟩
        intro hh
        exact hne (by rw [hh])
    · exact Or.inl (by omega)

theorem insBy_mem {ltk eqk : α → α → Bool} :
    ∀ {l l2 : List α} {x : α}, insBy ltk eqk x l = some l2 →
      ∀ z ∈ l2, z = x ∨ z ∈ l := by
  intro l
  induction l with
  | nil =>
    intro l2 x h z hz
    unfold insBy at h
    cases h
    rcases List.mem_singleton.mp hz with rfl
    exact Or.inl rfl
  | cons y r ih =>
    intro l2 x h z hz
    unfold insBy at h
    by_cases hc : ltk y x = true
    · rw [if_pos hc] at h
      cases hrec : insBy ltk eqk x r with
      | none => rw [hrec] at h; cases h
      | some r2 =>
        rw [hrec] at h
        have h2 : some (y :: r2) = some l2 := h
        cases h2
        rcases List.mem_cons.mp hz with rfl | hz
        · exact Or.inr (List.mem_cons_self _ _)
        · rcases ih hrec z hz with h | h
          · exact Or.inl h
          · exact Or.inr (List.mem_cons_of_mem _ h)
    · rw [if_neg hc] at h
      by_cases he : eqk y x = true
      · rw [if_pos he] at h; cases h
      · rw [if_neg he] at h
        cases h
        rcases List.mem_cons.mp hz with rfl | hz
        · exact Or.inl rfl
        · exact Or.inr hz

theorem insBy_append {ltk eqk : α → α → Bool} :
    ∀ {l : List α} {x : α}, (∀ y ∈ l, ltk y x = true) →
      insBy ltk eqk x l = some (l ++ [x]) := by
  intro l
  induction l with
  | nil => intro x _; rfl
  | cons y r ih =>
    intro x h
    unfold insBy
    rw [if_pos (h y (List.mem_cons_self _ _))]
    rw [ih (fun z hz => h z (List.mem_cons_of_mem _ hz))]
    rfl

theorem insBy_pairwise {ltk eqk : α → α → Bool}
    (htrans : ∀ a b c, ltk a b = true → ltk b c = true → ltk a c = true)
    (htotal : ∀ a b, ltk a b = false → eqk a b = false → ltk b a = true) :
    ∀ {l l2 : List α} {x : α}, insBy ltk eqk x l = some l2 →
      List.Pairwise (fun a b => ltk a b = true) l →
      List.Pairwise (fun a b => ltk a b = true) l2 := by
  intro l
  induction l with
  | nil =>
    intro l2 x h _
    cases h
    exact List.pairwise_singleton _ _
  | cons y r ih =>
    intro l2 x h hpw
    rw [List.pairwise_cons] at hpw
    obtain ⟨hy, hr⟩ := hpw
    unfold insBy at h
    by_cases hc : ltk y x = true
    · rw [if_pos hc] at h
      cases hrec : insBy ltk eqk x r with
      | none => rw [hrec] at h; cases h
      | some r2 =>
        rw [hrec] at h
        have h2 : some (y :: r2) = some l2 := h
        cases h2
        rw [List.pairwise_cons]
        refine ⟨?_, ih hrec hr⟩
        intro z hz
        rcases insBy_mem hrec z hz with rfl | hz
        · exact hc
        · exact hy z hz
    · rw [if_neg hc] at h
      by_cases he : eqk y x = true
      · rw [if_pos he] at h; cases h
      · rw [if_neg he] at h
        cases h
        have hxy : ltk x y = true :=
          htotal y x (by simpa using hc) (by simpa using he)
        rw [List.pairwise_cons]
        refine ⟨?_, ?_⟩
        · intro z hz
          rcases List.mem_cons.mp hz with rfl | hz
          · exact hxy
          · exact htrans x y z hxy (hy z hz)
        · rw [List.pairwise_cons]
          exact ⟨hy, hr⟩

theorem insSkip_mem [DecidableEq α] {ltk : α → α → Bool} :
    ∀ {l : List α} {x : α}, ∀ z ∈ insSkip ltk x l, z = x ∨ z ∈ l := by
  intro l
  induction l with
  | nil =>
    intro x z hz
    rcases List.mem_singleton.mp hz with rfl
    exact Or.inl rfl
  | cons y r ih =>
    intro x z hz
    unfold insSkip at hz
    by_cases hc : ltk y x = true
    · rw [if_pos hc] at hz
      rcases List.mem_cons.mp hz with rfl | hz
      · exact Or.inr (List.mem_cons_self _ _)
      · rcases ih z hz with h | h
        · exact Or.inl h
        · exact Or.inr (List.mem_cons_of_mem _ h)
    · rw [if_neg hc] at hz
      by_cases he : y = x
      · rw [if_pos he] at hz
        exact Or.inr hz
      · rw [if_neg he] at hz
        rcases List.mem_cons.mp hz with rfl | hz
        · exact Or.inl rfl
        · exact Or.inr hz

theorem insSkip_append [DecidableEq α] {ltk : α → α → Bool} :
    ∀ {l : List α} {x : α}, (∀ y ∈ l, ltk y x = true) →
      insSkip ltk x l = l ++ [x] := by
  intro l
  induction l with
  | nil => intro x _; rfl
  | cons y r ih =>
    intro x h
    unfold insSkip
    rw [if_pos (h y (List.mem_cons_self _ _))]
    rw [ih (fun z hz => h z (List.mem_cons_of_mem _ hz))]
    rfl

theorem insSkip_pairwise [DecidableEq α] {ltk : α → α → Bool}
    (htrans : ∀ a b c, ltk a b = true → ltk b c = true → ltk a c = true)
    (htotal : ∀ a b : α, ltk a b = false → a ≠ b → ltk b a = true) :
    ∀ {l : List α} {x : α},
      List.Pairwise (fun a b => ltk a b = true) l →
      List.Pairwise (fun a b => ltk a b = true) (insSkip ltk x l) := by
  intro l
  induction l with
  | nil =>
    intro x _
    exact List.pairwise_singleton _ _
  | cons y r ih =>
    intro x hpw
    rw [List.pairwise_cons] at hpw
    obtain ⟨hy, hr⟩ := hpw
    unfold insSkip
    by_cases hc : ltk y x = true
    · rw [if_pos hc]
      rw [List.pairwise_cons]
      refine ⟨?_, ih hr⟩
      intro z hz
      rcases insSkip_mem z hz with rfl | hz
      · exact hc
      · exact hy z hz
    · rw [if_neg hc]
      by_cases he : y = x
      · rw [if_pos he]
        rw [List.pairwise_cons]
        exact ⟨hy, hr⟩
      · rw [if_neg he]
        have hxy : ltk x y = true := htotal y x (by simpa using hc) he
        rw [List.pairwise_cons]
        refine ⟨?_, ?_⟩
        · intro z hz
          rcases List.mem_cons.mp hz with rfl | hz
          · exact hxy
          · exact htrans x y z hxy (hy z hz)
        · rw [List.pairwise_cons]
          exact ⟨hy, hr⟩

/-! ### Normalization facts -/

theorem lowerS_all_alpha {s : Str} (h : s.all isAlphaB = true) :
    (lowerS s).all isAlphaB = true := by
  unfold lowerS
  rw [List.all_map]
  rw [List.all_eq_true] at h ⊢
  intro x hx
  exact lowerB_alpha (h x hx)

theorem lowerS_all_alnum {s : Str} (h : s.all isAlnumB = true) :
    (lowerS s).all isAlnumB = true := by
  unfold lowerS
  rw [List.all_map]
  rw [List.all_eq_true] at h ⊢
  intro x hx
  exact lowerB_alnum (h x hx)

theorem lowerS_length (s : Str) : (lowerS s).length = s.length := List.length_map s lowerB

theorem upperB_digit {b : Nat} (h : isDigitB b = true) : upperB b = b := by
  rw [isDigitB_iff] at h
  exact upperB_lo (by omega)

theorem lowerB_digit_pres {b : Nat} (h : isDigitB b = true) : isDigitB (lowerB b) = true := by
  rw [lowerB_fix_of_digit h]
  exact h

theorem isLanguageStr_lower {s : Str} (h : isLanguageStr s = true) :
    isLanguageStr (lowerS s) = true := by
  unfold isLanguageStr at h ⊢
  simp only [Bool.and_eq_true, decide_eq_true_eq] at h ⊢
  rw [lowerS_length]
  exact ⟨h.1, lowerS_all_alpha h.2⟩

theorem normScript_isScript {s : Str} (h : isScriptStr s = true) :
    isScriptStr (normScript s) = true := by
  unfold isScriptStr at h ⊢
  cases s with
  | nil => simpa using h
  | cons c r =>
    simp only [normScript, List.length_cons, List.all_cons, Bool.and_eq_true,
      beq_iff_eq] at h ⊢
    obtain ⟨hlen, hc, hr⟩ := h
    exact ⟨by rw [lowerS_length]; omega, upperB_alpha hc, lowerS_all_alpha hr⟩

theorem normScript_idem (s : Str) : normScript (normScript s) = normScript s := by
  cases s with
  | nil => rfl
  | cons c r =>
    show upperB (upperB c) :: lowerS (lowerS r) = upperB c :: lowerS r
    rw [upperB_idem, lowerS_idem]

theorem normRegion_isRegion {s : Str} (h : isRegionStr s = true) :
    isRegionStr (normRegion s) = true := by
  unfold isRegionStr at h ⊢
  simp only [Bool.or_eq_true, Bool.and_eq_true, beq_iff_eq] at h ⊢
  rcases h with ⟨hlen, hall⟩ | ⟨hlen, hall⟩
  · left
    unfold normRegion
    rw [List.length_map, List.all_map]
    rw [List.all_eq_true] at hall ⊢
    exact ⟨hlen, fun x hx => upperB_alpha (hall x hx)⟩
  · right
    unfold normRegion
    rw [List.length_map, List.all_map]
    rw [List.all_eq_true] at hall ⊢
    refine ⟨hlen, fun x hx => ?_⟩
    rw [Function.comp_apply, upperB_digit (hall x hx)]
    exact hall x hx

theorem normRegion_idem (s : Str) : normRegion (normRegion s) = normRegion s := by
  unfold normRegion
  rw [List.map_map]
  apply List.map_congr_left
  intro b _
  exact upperB_idem b

theorem lowerS_isVariant {s : Str} (h : isVariantStr s = true) :
    isVariantStr (lowerS s) = true := by
  unfold isVariantStr at h ⊢
  simp only [Bool.and_eq_true, Bool.or_eq_true, beq_iff_eq, decide_eq_true_eq] at h ⊢
  obtain ⟨hall, hshape⟩ := h
  refine ⟨lowerS_all_alnum hall, ?_⟩
  rw [lowerS_length]
  rcases hshape with h | ⟨h4, hd⟩
  · exact Or.inl h
  · refine Or.inr ⟨h4, ?_⟩
    cases s with
    | nil => simpa using hd
    | cons c r =>
      show isDigitB (lowerB c) = true
      exact lowerB_digit_pres hd

/-! ### Parser output is canonical (Subtags side) -/

theorem parseLanguage_canonical {seg : Str} {lang : Option Str}
    (h : parseLanguage seg = .ok lang) : canLanguage lang = true := by
  unfold parseLanguage at h
  by_cases h1 : lowerS seg = UND
  · simp only [h1, if_pos rfl] at h
    cases h
    rfl
  · rw [if_neg h1] at h
    by_cases h2 : isLanguageStr (lowerS seg) = true
    · rw [if_pos h2] at h
      cases h
      simp only [canLanguage]
      rw [h2, lowerS_idem]
      simp [h1]
    · rw [if_neg h2] at h
      cases h

theorem canVariants_insert {vs : List Str} {v : Str}
    (hvs : canVariants vs = true) (hv : isVariantStr v = true) :
    canVariants (insSkip strLt (lowerS v) vs) = true := by
  unfold canVariants at hvs ⊢
  rw [Bool.and_eq_true, List.all_eq_true] at hvs
  rw [Bool.and_eq_true, List.all_eq_true]
  obtain ⟨hall, hpw⟩ := hvs
  constructor
  · intro x hx
    rcases insSkip_mem x hx with rfl | hx
    · simp only [Bool.and_eq_true, beq_iff_eq]
      exact ⟨lowerS_isVariant hv, lowerS_idem v⟩
    · exact hall x hx
  · rw [pairwiseB_iff] at hpw ⊢
    exact insSkip_pairwise strLt_trans strLt_total hpw

theorem langTail_canonical {strict : Bool} :
    ∀ {segs : List Str} {cs cr : Bool} {lang scr reg : Option Str} {vars : List Str}
      {lid : LanguageIdentifier} {rest : List Str},
      canLanguage lang = true → canScript scr = true → canRegion reg = true →
      canVariants vars = true →
      langTail strict cs cr lang scr reg vars segs = .ok (lid, rest) →
      lid.canonical = true := by
  intro segs
  induction segs with
  | nil =>
    intro cs cr lang scr reg vars lid rest hl hs hr hv h
    unfold langTail at h
    cases h
    unfold LanguageIdentifier.canonical
    rw [hl, hs, hr, hv]
    rfl
  | cons seg rest2 ih =>
    intro cs cr lang scr reg vars lid rest hl hs hr hv h
    unfold langTail at h
    by_cases h1 : (cs && isScriptStr seg) = true
    · rw [if_pos h1] at h
      rw [Bool.and_eq_true] at h1
      refine ih hl ?_ hr hv h
      unfold canScript
      rw [Bool.and_eq_true, beq_iff_eq]
      exact ⟨normScript_isScript h1.2, normScript_idem seg⟩
    · rw [if_neg h1] at h
      by_cases h2 : (cr && isRegionStr seg) = true
      · rw [if_pos h2] at h
        rw [Bool.and_eq_true] at h2
        refine ih hl hs ?_ hv h
        unfold canRegion
        rw [Bool.and_eq_true, beq_iff_eq]
        exact ⟨normRegion_isRegion h2.2, normRegion_idem seg⟩
      · rw [if_neg h2] at h
        by_cases h3 : isVariantStr seg = true
        · rw [if_pos h3] at h
          exact ih hl hs hr (canVariants_insert hv h3) h
        · rw [if_neg h3] at h
          by_cases h4 : (strict && !(isExtStart seg)) = true
          · rw [if_pos h4] at h
            cases h
          · rw [if_neg h4] at h
            cases h
            unfold LanguageIdentifier.canonical
            rw [hl, hs, hr, hv]
            rfl

theorem parseLangIdSegs_canonical {segs : List Str} {lid : LanguageIdentifier}
    {rest : List Str} (h : parseLangIdSegs segs = .ok (lid, rest)) :
    lid.canonical = true := by
  cases segs with
  | nil => cases h
  | cons l r =>
    simp only [parseLangIdSegs] at h
    split at h
    · cases h
    · next lang hl => exact langTail_canonical (parseLanguage_canonical hl) (by rfl) (by rfl) (by rfl) h

/-! ### Parser output is canonical (extensions side) -/

theorem lowerS_isUValue {s : Str} (h : isUValue s = true) : isUValue (lowerS s) = true := by
  unfold isUValue at h ⊢
  simp only [Bool.and_eq_true, decide_eq_true_eq] at h ⊢
  rw [lowerS_length]
  exact ⟨⟨h.1.1, h.1.2⟩, lowerS_all_alnum h.2⟩

theorem lowerS_isPrivToken {s : Str} (h : isPrivToken s = true) :
    isPrivToken (lowerS s) = true := by
  unfold isPrivToken at h ⊢
  simp only [Bool.and_eq_true, decide_eq_true_eq] at h ⊢
  rw [lowerS_length]
  exact ⟨⟨h.1.1, h.1.2⟩, lowerS_all_alnum h.2⟩

theorem lowerS_isTKey {s : Str} (h : isTKey s = true) : isTKey (lowerS s) = true := by
  unfold isTKey at h ⊢
  cases s with
  | nil => cases h
  | cons a t =>
    cases t with
    | nil => cases h
    | cons d t2 =>
      cases t2 with
      | nil =>
        simp only [Bool.and_eq_true] at h
        show (isAlphaB (lowerB a) && isDigitB (lowerB d)) = true
        rw [lowerB_alpha h.1, lowerB_digit_pres h.2]
        rfl
      | cons _ _ => cases h

theorem isRecStart_lowerS (s : Str) : isRecStart (lowerS s) = isRecStart s := by
  unfold isRecStart
  cases s with
  | nil => rfl
  | cons b t =>
    cases t with
    | nil =>
      show (lowerB (lowerB b) == 117 || lowerB (lowerB b) == 116 || lowerB (lowerB b) == 120) = _
      rw [lowerB_idem]
    | cons _ _ => rfl

theorem lowerB_mk_lower {b : Nat} (h : isAlphaB b = true) : isLowerB (lowerB b) = true := by
  rw [isAlphaB_iff] at h
  unfold isLowerB
  by_cases hc : 65 ≤ b ∧ b ≤ 90
  · rw [lowerB_hi hc.1 hc.2]
    simp only [Bool.and_eq_true, decide_eq_true_eq]
    omega
  · rw [lowerB_lo hc]
    simp only [Bool.and_eq_true, decide_eq_true_eq]
    omega

theorem ukRank_inj : ∀ k1 k2 : UnicodeExtensionKey, ukRank k1 = ukRank k2 → k1 = k2 := by
  intro k1 k2
  cases k1 <;> cases k2 <;> intro h <;> first | rfl | (exact absurd h (by decide))

/-- Value-slot well-formedness for a unicode keyword. -/
theorem canUnicode_insert {ks ks2 : List (UnicodeExtensionKey × Option Str)}
    {k : UnicodeExtensionKey} {v : Option Str}
    (hks : canUnicode ks = true)
    (hv : match v with
          | none => True
          | some x => isUValue x = true ∧ lowerS x = x)
    (hins : insBy (fun p q => ukRank p.1 < ukRank q.1) (fun p q => p.1 == q.1)
      (k, v) ks = some ks2) :
    canUnicode ks2 = true := by
  unfold canUnicode at hks ⊢
  rw [Bool.and_eq_true, List.all_eq_true] at hks
  rw [Bool.and_eq_true, List.all_eq_true]
  obtain ⟨hall, hpw⟩ := hks
  constructor
  · intro p hp
    rcases insBy_mem hins p hp with rfl | hp
    · cases v with
      | none => rfl
      | some x =>
        simp only [Bool.and_eq_true, beq_iff_eq]
        exact ⟨hv.1, hv.2⟩
    · exact hall p hp
  · rw [pairwiseB_iff] at hpw ⊢
    refine insBy_pairwise ?_ ?_ hins hpw
    · intro a b c h1 h2
      simp only [decide_eq_true_eq] at h1 h2 ⊢
      omega
    · intro a b h1 h2
      simp only [decide_eq_false_iff_not, beq_eq_false_iff_ne, ne_eq] at h1 h2
      simp only [decide_eq_true_eq]
      have : ukRank a.1 ≠ ukRank b.1 := fun hh => h2 (ukRank_inj _ _ hh)
      omega

theorem canAttrs_insert {ats ats2 : List Str} {a : Str}
    (hats : canAttrs ats = true) (ha : isUValue a = true)
    (hins : insBy strLt (· == ·) (lowerS a) ats = some ats2) :
    canAttrs ats2 = true := by
  unfold canAttrs at hats ⊢
  rw [Bool.and_eq_true, List.all_eq_true] at hats
  rw [Bool.and_eq_true, List.all_eq_true]
  obtain ⟨hall, hpw⟩ := hats
  constructor
  · intro x hx
    rcases insBy_mem hins x hx with rfl | hx
    · simp only [Bool.and_eq_true, beq_iff_eq]
      exact ⟨lowerS_isUValue ha, lowerS_idem a⟩
    · exact hall x hx
  · rw [pairwiseB_iff] at hpw ⊢
    refine insBy_pairwise strLt_trans ?_ hins hpw
    intro x y h1 h2
    simp only [beq_eq_false_iff_ne, ne_eq] at h2
    exact strLt_total x y h1 h2

theorem canPriv_insert {ps ps2 : List Str} {t : Str}
    (hps : canPriv ps = true) (ht : isPrivToken t = true)
    (hrec : isRecStart t = false)
    (hins : insBy strLt (· == ·) (lowerS t) ps = some ps2) :
    canPriv ps2 = true := by
  unfold canPriv at hps ⊢
  rw [Bool.and_eq_true, List.all_eq_true] at hps
  rw [Bool.and_eq_true, List.all_eq_true]
  obtain ⟨hall, hpw⟩ := hps
  constructor
  · intro x hx
    rcases insBy_mem hins x hx with rfl | hx
    · simp only [Bool.and_eq_true, beq_iff_eq, Bool.not_eq_true']
      exact ⟨⟨lowerS_isPrivToken ht, lowerS_idem t⟩, by rw [isRecStart_lowerS]; exact hrec⟩
    · exact hall x hx
  · rw [pairwiseB_iff] at hpw ⊢
    refine insBy_pairwise strLt_trans ?_ hins hpw
    intro x y h1 h2
    simp only [beq_eq_false_iff_ne, ne_eq] at h2
    exact strLt_total x y h1 h2

theorem canTFields_insert {fs fs2 : List (Str × Str)} {k v : Str}
    (hfs : canTFields fs = true) (hk : isTKey k = true) (hv : isUValue v = true)
    (hins : insBy (fun p q => strLt p.1 q.1) (fun p q => p.1 == q.1)
      (lowerS k, lowerS v) fs = some fs2) :
    canTFields fs2 = true := by
  unfold canTFields at hfs ⊢
  rw [Bool.and_eq_true, List.all_eq_true] at hfs
  rw [Bool.and_eq_true, List.all_eq_true]
  obtain ⟨hall, hpw⟩ := hfs
  constructor
  · intro p hp
    rcases insBy_mem hins p hp with rfl | hp
    · simp only [Bool.and_eq_true, beq_iff_eq]
      exact ⟨⟨⟨lowerS_isTKey hk, lowerS_idem k⟩, lowerS_isUValue hv⟩, lowerS_idem v⟩
    · exact hall p hp
  · rw [pairwiseB_iff] at hpw ⊢
    refine insBy_pairwise ?_ ?_ hins hpw
    · intro a b c h1 h2
      exact strLt_trans _ _ _ h1 h2
    · intro a b h1 h2
      simp only [beq_eq_false_iff_ne, ne_eq] at h2
      exact strLt_total _ _ h1 h2

theorem canOther_insert {os os2 : List (Nat × List Str)} {c : Nat} {vals : List Str}
    (hos : canOther os = true) (hc : isLowerB c = true)
    (h7 : c ≠ 117) (h6 : c ≠ 116) (h0 : c ≠ 120)
    (hvals : ∀ v ∈ vals, canOtherVal v = true)
    (hins : insOther c vals os = some os2) :
    canOther os2 = true := by
  unfold canOther at hos ⊢
  unfold insOther at hins
  rw [Bool.and_eq_true, List.all_eq_true] at hos
  rw [Bool.and_eq_true, List.all_eq_true]
  obtain ⟨hall, hpw⟩ := hos
  constructor
  · intro p hp
    rcases insBy_mem hins p hp with rfl | hp
    · simp only [Bool.and_eq_true, Bool.not_eq_true', beq_eq_false_iff_ne, ne_eq,
        List.all_eq_true]
      exact ⟨⟨⟨⟨hc, h7⟩, h6⟩, h0⟩, hvals⟩
    · exact hall p hp
  · rw [pairwiseB_iff] at hpw ⊢
    refine insBy_pairwise ?_ ?_ hins hpw
    · intro a b c2 h1 h2
      simp only [decide_eq_true_eq] at h1 h2 ⊢
      omega
    · intro a b h1 h2
      simp only [decide_eq_false_iff_not, beq_eq_false_iff_ne, ne_eq] at h1 h2
      simp only [decide_eq_true_eq]
      omega

theorem parseURun_canonical_aux :
    ∀ (n : Nat) (segs : List Str), segs.length ≤ n →
      ∀ {ks ats ks2 ats2},
        canUnicode ks = true → canAttrs ats = true →
        parseURun ks ats segs = .ok (ks2, ats2) →
        canUnicode ks2 = true ∧ canAttrs ats2 = true := by
  intro n
  induction n with
  | zero =>
    intro segs hlen ks ats ks2 ats2 hk ha h
    have hnil : segs = [] := List.length_eq_zero.mp (Nat.le_zero.mp hlen)
    subst hnil
    unfold parseURun at h
    cases h
    exact ⟨hk, ha⟩
  | succ n ih =>
    intro segs hlen ks ats ks2 ats2 hk ha h
    cases segs with
    | nil =>
      unfold parseURun at h
      cases h
      exact ⟨hk, ha⟩
    | cons seg rest =>
      simp only [List.length_cons] at hlen
      cases rest with
      | nil =>
        unfold parseURun at h
        cases hkey : ukeyFromStr seg with
        | some k =>
          simp only [hkey] at h
          cases hins : insBy (fun p q => ukRank p.1 < ukRank q.1)
              (fun p q => p.1 == q.1) (k, none) ks with
          | some ks3 =>
            rw [hins] at h
            cases h
            exact ⟨canUnicode_insert hk trivial hins, ha⟩
          | none => rw [hins] at h; cases h
        | none =>
          simp only [hkey] at h
          by_cases hval : isUValue seg = true
          · rw [if_pos hval] at h
            cases hins : insBy strLt (· == ·) (lowerS seg) ats with
            | some ats3 =>
              rw [hins] at h
              exact ih [] (by omega) hk (canAttrs_insert ha hval hins) h
            | none => rw [hins] at h; cases h
          · rw [if_neg hval] at h
            cases h
      | cons v rest2 =>
        simp only [List.length_cons] at hlen
        unfold parseURun at h
        cases hkey : ukeyFromStr seg with
        | some k =>
          simp only [hkey] at h
          by_cases hval : isUValue v = true
          · rw [if_pos hval] at h
            cases hins : insBy (fun p q => ukRank p.1 < ukRank q.1)
                (fun p q => p.1 == q.1) (k, some (lowerS v)) ks with
            | some ks3 =>
              rw [hins] at h
              exact ih rest2 (by omega)
                (canUnicode_insert hk (by exact ⟨lowerS_isUValue hval, lowerS_idem v⟩) hins) ha h
            | none => rw [hins] at h; cases h
          · rw [if_neg hval] at h
            cases hins : insBy (fun p q => ukRank p.1 < ukRank q.1)
                (fun p q => p.1 == q.1) (k, none) ks with
            | some ks3 =>
              rw [hins] at h
              exact ih (v :: rest2) (by simp only [List.length_cons]; omega)
                (canUnicode_insert hk trivial hins) ha h
            | none => rw [hins] at h; cases h
        | none =>
          simp only [hkey] at h
          by_cases hval : isUValue seg = true
          · rw [if_pos hval] at h
            cases hins : insBy strLt (· == ·) (lowerS seg) ats with
            | some ats3 =>
              rw [hins] at h
              exact ih (v :: rest2) (by simp only [List.length_cons]; omega) hk
                (canAttrs_insert ha hval hins) h
            | none => rw [hins] at h; cases h
          · rw [if_neg hval] at h
            cases h

theorem parseURun_canonical {segs : List Str} {ks ats ks2 ats2}
    (hk : canUnicode ks = true) (ha : canAttrs ats = true)
    (h : parseURun ks ats segs = .ok (ks2, ats2)) :
    canUnicode ks2 = true ∧ canAttrs ats2 = true :=
  parseURun_canonical_aux segs.length segs (Nat.le_refl _) hk ha h

theorem parseTFields_canonical :
    ∀ (n : Nat) (segs : List Str), segs.length ≤ n →
      ∀ {fs fs2},
        canTFields fs = true →
        parseTFields fs segs = .ok fs2 →
        canTFields fs2 = true := by
  intro n
  induction n with
  | zero =>
    intro segs hlen fs fs2 hf h
    have hnil : segs = [] := List.length_eq_zero.mp (Nat.le_zero.mp hlen)
    subst hnil
    unfold parseTFields at h
    cases h
    exact hf
  | succ n ih =>
    intro segs hlen fs fs2 hf h
    cases segs with
    | nil =>
      unfold parseTFields at h
      cases h
      exact hf
    | cons k rest =>
      simp only [List.length_cons] at hlen
      cases rest with
      | nil =>
        unfold parseTFields at h
        cases h
      | cons v rest2 =>
        simp only [List.length_cons] at hlen
        unfold parseTFields at h
        by_cases hk : isTKey k = true
        · rw [if_pos hk] at h
          by_cases hv : isUValue v = true
          · rw [if_pos hv] at h
            cases hins : insBy (fun p q => strLt p.1 q.1) (fun p q => p.1 == q.1)
                (lowerS k, lowerS v) fs with
            | some fs3 =>
              rw [hins] at h
              exact ih rest2 (by omega) (canTFields_insert hf hk hv hins) h
            | none => rw [hins] at h; cases h
          · rw [if_neg hv] at h
            cases h
        · rw [if_neg hk] at h
          cases h

theorem parsePrivRun_canonical :
    ∀ (segs : List Str) {ps ps2},
      (∀ seg ∈ segs, isRecStart seg = false) →
      canPriv ps = true →
      parsePrivRun ps segs = .ok ps2 →
      canPriv ps2 = true := by
  intro segs
  induction segs with
  | nil =>
    intro ps ps2 _ hp h
    unfold parsePrivRun at h
    cases h
    exact hp
  | cons seg rest ih =>
    intro ps ps2 hrec hp h
    unfold parsePrivRun at h
    by_cases ht : isPrivToken seg = true
    · rw [if_pos ht] at h
      cases hins : insBy strLt (· == ·) (lowerS seg) ps with
      | some ps3 =>
        rw [hins] at h
        exact ih (fun x hx => hrec x (List.mem_cons_of_mem _ hx))
          (canPriv_insert hp ht (hrec seg (List.mem_cons_self _ _)) hins) h
      | none => rw [hins] at h; cases h
    · rw [if_neg ht] at h
      cases h

theorem parseTLangSegs_canonical {segs : List Str} {lid : LanguageIdentifier}
    {rem : List Str} (h : parseTLangSegs segs = (some lid, rem)) :
    lid.canonical = true := by
  unfold parseTLangSegs at h
  cases segs with
  | nil => cases h
  | cons l rest =>
    cases hl : parseLanguage l with
    | error e =>
      simp only [hl] at h
      cases h
    | ok lang =>
      simp only [hl] at h
      cases ht : langTail false true true lang none none [] rest with
      | ok pr =>
        rw [ht] at h
        obtain ⟨lid2, rem2⟩ := pr
        cases h
        exact langTail_canonical (parseLanguage_canonical hl) (by rfl) (by rfl) (by rfl) ht
      | error e =>
        rw [ht] at h
        cases h

theorem parseTransformRun_canonical {run : List Str} {t : Transform}
    (h : parseTransformRun run = .ok t) : t.canonical = true := by
  unfold parseTransformRun at h
  cases htl : parseTLangSegs run with
  | mk tl rest =>
    simp only [htl] at h
    cases hf : parseTFields [] rest with
    | ok fs =>
      rw [hf] at h
      cases h
      unfold Transform.canonical
      rw [Bool.and_eq_true]
      constructor
      · cases tl with
        | none => rfl
        | some lid => exact parseTLangSegs_canonical htl
      · exact parseTFields_canonical rest.length rest (Nat.le_refl _) (by rfl) hf
    | error e =>
      rw [hf] at h
      cases h

theorem parseExtSegs_canonical :
    ∀ (fuel : Nat) (segs : List Str) (seen : List Nat) (m m2 : ExtensionsMap),
      ExtensionsMap.canonical m = true →
      (∀ seg ∈ segs, SEP ∉ seg) →
      parseExtSegs fuel seen m segs = .ok m2 →
      ExtensionsMap.canonical m2 = true := by
  intro fuel
  induction fuel with
  | zero =>
    intro segs seen m m2 hm hsep h
    cases segs with
    | nil =>
      unfold parseExtSegs at h
      cases h
      exact hm
    | cons seg rest =>
      unfold parseExtSegs at h
      cases h
  | succ fuel ih =>
    intro segs seen m m2 hm hsep h
    cases segs with
    | nil =>
      unfold parseExtSegs at h
      cases h
      exact hm
    | cons seg rest =>
      cases seg with
      | nil =>
        unfold parseExtSegs at h
        cases h
      | cons b t =>
        cases t with
        | cons _ _ =>
          unfold parseExtSegs at h
          cases h
        | nil =>
          unfold parseExtSegs at h
          by_cases hb : isAlphaB b = true
          · rw [if_pos hb] at h
            by_cases hseen : (seen.contains (lowerB b)) = true
            · rw [if_pos hseen] at h
              cases h
            · rw [if_neg hseen] at h
              have hsepr : ∀ x ∈ rest, SEP ∉ x :=
                fun x hx => hsep x (List.mem_cons_of_mem _ hx)
              by_cases h117 : lowerB b = 117
              · rw [if_pos h117] at h
                cases hu : parseURun m.unicode m.attributes
                    (rest.takeWhile (fun s => !(isExtStart s))) with
                | ok pr =>
                  rw [hu] at h
                  obtain ⟨ks, ats⟩ := pr
                  have hcan := hm
                  unfold ExtensionsMap.canonical at hcan
                  simp only [Bool.and_eq_true] at hcan
                  obtain ⟨⟨⟨⟨hck, hca⟩, hct⟩, hcp⟩, hco⟩ := hcan
                  obtain ⟨hck2, hca2⟩ := parseURun_canonical hck hca hu
                  refine ih _ _ _ _ ?_
                    (fun x hx => hsepr x ((List.dropWhile_sublist _).mem hx)) h
                  unfold ExtensionsMap.canonical
                  simp only [Bool.and_eq_true]
                  exact ⟨⟨⟨⟨hck2, hca2⟩, hct⟩, hcp⟩, hco⟩
                | error e =>
                  rw [hu] at h
                  cases h
              · rw [if_neg h117] at h
                by_cases h116 : lowerB b = 116
                · rw [if_pos h116] at h
                  cases htr : parseTransformRun
                      (rest.takeWhile (fun s => !(isExtStart s))) with
                  | ok tr =>
                    rw [htr] at h
                    have hcan := hm
                    unfold ExtensionsMap.canonical at hcan
                    simp only [Bool.and_eq_true] at hcan
                    obtain ⟨⟨⟨⟨hck, hca⟩, _⟩, hcp⟩, hco⟩ := hcan
                    refine ih _ _ _ _ ?_
                      (fun x hx => hsepr x ((List.dropWhile_sublist _).mem hx)) h
                    unfold ExtensionsMap.canonical
                    simp only [Bool.and_eq_true]
                    exact ⟨⟨⟨⟨hck, hca⟩, parseTransformRun_canonical htr⟩, hcp⟩, hco⟩
                  | error e =>
                    rw [htr] at h
                    cases h
                · rw [if_neg h116] at h
                  by_cases h120 : lowerB b = 120
                  · rw [if_pos h120] at h
                    cases hpr : parsePrivRun m.priv
                        (rest.takeWhile (fun s => !(isRecStart s))) with
                    | ok ps =>
                      rw [hpr] at h
                      have hcan := hm
                      unfold ExtensionsMap.canonical at hcan
                      simp only [Bool.and_eq_true] at hcan
                      obtain ⟨⟨⟨⟨hck, hca⟩, hct⟩, hcp⟩, hco⟩ := hcan
                      have hps : canPriv ps = true := by
                        refine parsePrivRun_canonical _ ?_ hcp hpr
                        intro x hx
                        have := List.mem_takeWhile_imp hx
                        simpa using this
                      refine ih _ _ _ _ ?_
                        (fun x hx => hsepr x ((List.dropWhile_sublist _).mem hx)) h
                      unfold ExtensionsMap.canonical
                      simp only [Bool.and_eq_true]
                      exact ⟨⟨⟨⟨hck, hca⟩, hct⟩, hps⟩, hco⟩
                    | error e =>
                      rw [hpr] at h
                      cases h
                  · rw [if_neg h120] at h
                    cases hins : insOther (lowerB b)
                        (rest.takeWhile (fun s => !(isExtStart s))) m.other with
                    | some o2 =>
                      rw [hins] at h
                      have hcan := hm
                      unfold ExtensionsMap.canonical at hcan
                      simp only [Bool.and_eq_true] at hcan
                      obtain ⟨⟨⟨⟨hck, hca⟩, hct⟩, hcp⟩, hco⟩ := hcan
                      have ho2 : canOther o2 = true := by
                        refine canOther_insert hco (lowerB_mk_lower hb) h117 h116 h120 ?_ hins
                        intro v hv
                        unfold canOtherVal
                        have hvp := List.mem_takeWhile_imp hv
                        simp only [Bool.not_eq_true'] at hvp ⊢
                        rw [Bool.and_eq_true]
                        constructor
                        · simp [hvp]
                        · simp only [Bool.not_eq_true']
                          rw [← Bool.not_eq_true (v.contains SEP)]
                          intro hc
                          have hmem : SEP ∈ v := by simpa using hc
                          exact hsepr v ((List.takeWhile_sublist _).mem hv) hmem
                      refine ih _ _ _ _ ?_
                        (fun x hx => hsepr x ((List.dropWhile_sublist _).mem hx)) h
                      unfold ExtensionsMap.canonical
                      simp only [Bool.and_eq_true]
                      exact ⟨⟨⟨⟨hck, hca⟩, hct⟩, hcp⟩, ho2⟩
                    | none =>
                      rw [hins] at h
                      cases h
          · rw [if_neg hb] at h
            cases h

theorem langTail_rest_mem {strict : Bool} :
    ∀ {segs : List Str} {cs cr : Bool} {lang scr reg : Option Str} {vars : List Str}
      {lid : LanguageIdentifier} {rest : List Str},
      langTail strict cs cr lang scr reg vars segs = .ok (lid, rest) →
      ∀ x ∈ rest, x ∈ segs := by
  intro segs
  induction segs with
  | nil =>
    intro cs cr lang scr reg vars lid rest h x hx
    unfold langTail at h
    cases h
    cases hx
  | cons seg rest2 ih =>
    intro cs cr lang scr reg vars lid rest h x hx
    unfold langTail at h
    by_cases h1 : (cs && isScriptStr seg) = true
    · rw [if_pos h1] at h
      exact List.mem_cons_of_mem _ (ih h x hx)
    · rw [if_neg h1] at h
      by_cases h2 : (cr && isRegionStr seg) = true
      · rw [if_pos h2] at h
        exact List.mem_cons_of_mem _ (ih h x hx)
      · rw [if_neg h2] at h
        by_cases h3 : isVariantStr seg = true
        · rw [if_pos h3] at h
          exact List.mem_cons_of_mem _ (ih h x hx)
        · rw [if_neg h3] at h
          by_cases h4 : (strict && !(isExtStart seg)) = true
          · rw [if_pos h4] at h
            cases h
          · rw [if_neg h4] at h
            cases h
            exact hx

theorem langTail_mem_rest {segs : List Str} {lid : LanguageIdentifier}
    {rest : List Str} (h : parseLangIdSegs segs = .ok (lid, rest)) :
    ∀ x ∈ rest, x ∈ segs := by
  cases segs with
  | nil => cases h
  | cons l r =>
    simp only [parseLangIdSegs] at h
    split at h
    · cases h
    · next lang hl =>
      intro x hx
      exact List.mem_cons_of_mem _ (langTail_rest_mem h x hx)

theorem parse_locale_canonical {s : Str} {loc : Locale}
    (h : parse_locale s = .ok loc) : loc.canonical = true := by
  unfold parse_locale at h
  cases hl : parseLangIdSegs (splitDash s) with
  | error e =>
    rw [hl] at h
    cases h
  | ok pr =>
    obtain ⟨lid, rest⟩ := pr
    simp only [hl] at h
    cases he : parseExtSegs rest.length [] {} rest with
    | error e =>
      simp only [he] at h
      cases h
    | ok m =>
      simp only [he] at h
      cases h
      unfold Locale.canonical
      rw [Bool.and_eq_true]
      constructor
      · exact parseLangIdSegs_canonical hl
      · refine parseExtSegs_canonical _ _ _ _ _ (by rfl) ?_ he
        intro seg hseg
        have hsub : ∀ x ∈ rest, x ∈ splitDash s := by
          intro x hx
          exact langTail_mem_rest hl x hx
        exact splitDash_no_sep s seg (hsub seg hseg)

/-- C6: every parsed locale's extension serialization emits the sequences
in the fixed letter order `t`, `u`, remaining other letters ascending, `x`
last — regardless of input order; concretely, `en-x-foo-u-hc-h12` parses
and re-serializes as `en-u-hc-h12-x-foo`. -/
theorem C6_serialization_order (s : Str) (loc : Locale)
    (h : parse_locale s = .ok loc) :
    List.Pairwise (fun a b => extRank a < extRank b) loc.extensions.seqLetters ∧
    (parse_locale (str "en-x-foo-u-hc-h12")).map Locale.to_string =
      .ok (str "en-u-hc-h12-x-foo") := by
  constructor
  · have hc := parse_locale_canonical h
    unfold Locale.canonical at hc
    rw [Bool.and_eq_true] at hc
    have hext := hc.2
    unfold ExtensionsMap.canonical at hext
    simp only [Bool.and_eq_true] at hext
    exact seqLetters_sorted _ hext.2
  · decide

/-- Witness for C6 at the locale parsed from `en-x-foo-u-hc-h12`. -/
theorem C6_serialization_order_witness :
    List.Pairwise (fun a b => extRank a < extRank b)
      (ExtensionsMap.seqLetters
        { unicode := [(.hourCycle, some [104, 49, 50])], priv := [[102, 111, 111]] }) :=
  (C6_serialization_order (str "en-x-foo-u-hc-h12")
    ⟨⟨some [101, 110], none, none, []⟩,
      { unicode := [(.hourCycle, some [104, 49, 50])], priv := [[102, 111, 111]] }⟩
    (by decide)).1

/-- C7: a duplicate in the extension tail — a repeated extension letter, a
repeated unicode keyword or attribute, or a repeated private-use token —
fails the whole parse with a parser error (in particular
`en-u-hc-h12-hc-h24` fails), and a successful parse never stores a
duplicate anywhere (all-or-nothing, no partially-populated Locale). -/
theorem C7_duplicate_rejection :
    parse_locale (str "en-u-hc-h12-hc-h24") = .error (.parser .duplicateKeyword) ∧
    parse_locale (str "en-u-hc-h12-u-ca-buddhist") =
      .error (.parser .duplicateExtension) ∧
    parse_locale (str "en-u-foobar-foobar") = .error (.parser .duplicateAttribute) ∧
    parse_locale (str "en-x-aa-aa") = .error (.parser .duplicatePrivate) ∧
    (∀ (s : Str) (loc : Locale), parse_locale s = .ok loc →
      loc.extensions.priv.Nodup ∧
      (loc.extensions.unicode.map (fun p => p.1)).Nodup ∧
      loc.extensions.attributes.Nodup ∧
      (loc.extensions.other.map (fun p => p.1)).Nodup ∧
      loc.langid.variants.Nodup) := by
  refine ⟨by decide, by decide, by decide, by decide, ?_⟩
  intro s loc h
  have hc := parse_locale_canonical h
  unfold Locale.canonical at hc
  rw [Bool.and_eq_true] at hc
  obtain ⟨hlid, hext⟩ := hc
  unfold ExtensionsMap.canonical at hext
  simp only [Bool.and_eq_true] at hext
  obtain ⟨⟨⟨⟨hck, hca⟩, _⟩, hcp⟩, hco⟩ := hext
  unfold LanguageIdentifier.canonical at hlid
  simp only [Bool.and_eq_true] at hlid
  have hvars := hlid.2
  unfold canVariants at hvars
  rw [Bool.and_eq_true, pairwiseB_iff] at hvars
  unfold canPriv at hcp
  rw [Bool.and_eq_true, pairwiseB_iff] at hcp
  unfold canUnicode at hck
  rw [Bool.and_eq_true, pairwiseB_iff] at hck
  unfold canAttrs at hca
  rw [Bool.and_eq_true, pairwiseB_iff] at hca
  unfold canOther at hco
  rw [Bool.and_eq_true, pairwiseB_iff] at hco
  refine ⟨?_, ?_, ?_, ?_, ?_⟩
  · refine hcp.2.imp ?_
    intro a b hab heq
    subst heq
    rw [strLt_irrefl a] at hab
    cases hab
  · rw [List.Nodup, List.pairwise_map]
    refine hck.2.imp ?_
    intro p q hpq heq
    simp only [decide_eq_true_eq] at hpq
    rw [heq] at hpq
    omega
  · refine hca.2.imp ?_
    intro a b hab heq
    subst heq
    rw [strLt_irrefl a] at hab
    cases hab
  · rw [List.Nodup, List.pairwise_map]
    refine hco.2.imp ?_
    intro p q hpq heq
    simp only [decide_eq_true_eq] at hpq
    rw [heq] at hpq
    omega
  · refine hvars.2.imp ?_
    intro a b hab heq
    subst heq
    rw [strLt_irrefl a] at hab
    cases hab

/-- Witness for C7's universal part at `en-x-foo-u-hc-h12`. -/
theorem C7_duplicate_rejection_witness :
    ({ unicode := [(.hourCycle, some [104, 49, 50])],
        priv := [[102, 111, 111]] } : ExtensionsMap).priv.Nodup :=
  (C7_duplicate_rejection.2.2.2.2 (str "en-x-foo-u-hc-h12")
    ⟨⟨some [101, 110], none, none, []⟩,
      { unicode := [(.hourCycle, some [104, 49, 50])], priv := [[102, 111, 111]] }⟩
    (by decide)).1

/-! ### Reparsing a canonical serialization: splitting and disjointness -/

theorem takeWhile_append_of {p : Str → Bool} :
    ∀ {l r : List Str}, (∀ x ∈ l, p x = true) →
      (∀ hd tl, r = hd :: tl → p hd = false) →
      (l ++ r).takeWhile p = l ∧ (l ++ r).dropWhile p = r := by
  intro l
  induction l with
  | nil =>
    intro r _ hr
    cases r with
    | nil => exact ⟨rfl, rfl⟩
    | cons hd tl =>
      have := hr hd tl rfl
      simp only [List.nil_append, List.takeWhile_cons, List.dropWhile_cons, this]
      exact ⟨rfl, rfl⟩
  | cons x xs ih =>
    intro r hl hr
    have hx := hl x (List.mem_cons_self _ _)
    obtain ⟨h1, h2⟩ := ih (fun y hy => hl y (List.mem_cons_of_mem _ hy)) hr
    simp only [List.cons_append, List.takeWhile_cons, List.dropWhile_cons, hx]
    exact ⟨by simp [h1], by simp [h2]⟩

theorem isExtStart_of_len {s : Str} (h : s.length ≠ 1) : isExtStart s = false := by
  unfold isExtStart
  cases s with
  | nil => rfl
  | cons b t =>
    cases t with
    | nil => exact absurd rfl h
    | cons _ _ => rfl

theorem isScriptStr_of_len {s : Str} (h : s.length ≠ 4) : isScriptStr s = false := by
  unfold isScriptStr
  rw [Bool.and_eq_false_iff]
  left
  simpa using h

theorem isRegionStr_of_len {s : Str} (h2 : s.length ≠ 2) (h3 : s.length ≠ 3) :
    isRegionStr s = false := by
  unfold isRegionStr
  rw [Bool.or_eq_false_iff, Bool.and_eq_false_iff, Bool.and_eq_false_iff]
  exact ⟨Or.inl (by simpa using h2), Or.inl (by simpa using h3)⟩

theorem isVariantStr_of_len {s : Str} (h : s.length < 4) : isVariantStr s = false := by
  unfold isVariantStr
  rw [Bool.and_eq_false_iff]
  right
  rw [Bool.or_eq_false_iff, Bool.and_eq_false_iff, Bool.and_eq_false_iff]
  exact ⟨Or.inl (by simp only [decide_eq_false_iff_not]; omega),
    Or.inl (by simp only [beq_eq_false_iff_ne, ne_eq]; omega)⟩

theorem isVariantStr_len {s : Str} (h : isVariantStr s = true) :
    4 ≤ s.length ∧ s.length ≤ 8 := by
  unfold isVariantStr at h
  simp only [Bool.and_eq_true, Bool.or_eq_true, decide_eq_true_eq, beq_iff_eq] at h
  rcases h.2 with h | h
  · omega
  · omega

theorem variant_not_script {s : Str} (h : isVariantStr s = true) :
    isScriptStr s = false := by
  obtain ⟨h4, h8⟩ := isVariantStr_len h
  by_cases hlen : s.length = 4
  · unfold isVariantStr at h
    simp only [Bool.and_eq_true, Bool.or_eq_true, decide_eq_true_eq, beq_iff_eq] at h
    rcases h.2 with hh | hh
    · omega
    · cases s with
      | nil => simp at hlen
      | cons c r =>
        unfold isScriptStr
        rw [Bool.and_eq_false_iff]
        right
        simp only [List.all_cons, Bool.and_eq_false_iff]
        left
        have hd := hh.2
        rw [isDigitB_iff] at hd
        rw [← Bool.not_eq_true]
        rw [isAlphaB_iff]
        simp only [not_or, not_and]
        omega
  · exact isScriptStr_of_len hlen

theorem variant_not_region {s : Str} (h : isVariantStr s = true) :
    isRegionStr s = false := by
  obtain ⟨h4, _⟩ := isVariantStr_len h
  exact isRegionStr_of_len (by omega) (by omega)

theorem region_not_script {s : Str} (h : isRegionStr s = true) :
    isScriptStr s = false := by
  unfold isRegionStr at h
  simp only [Bool.or_eq_true, Bool.and_eq_true, beq_iff_eq] at h
  rcases h with ⟨h2, _⟩ | ⟨h3, _⟩
  · exact isScriptStr_of_len (by omega)
  · exact isScriptStr_of_len (by omega)

theorem tkey_facts {s : Str} (h : isTKey s = true) :
    s.length = 2 ∧ isScriptStr s = false ∧ isRegionStr s = false ∧
      isVariantStr s = false ∧ parseLanguage s = .error .invalidLanguage := by
  unfold isTKey at h
  cases s with
  | nil => cases h
  | cons a t =>
    cases t with
    | nil => cases h
    | cons d t2 =>
      cases t2 with
      | cons _ _ => cases h
      | nil =>
        rw [Bool.and_eq_true] at h
        obtain ⟨ha, hd⟩ := h
        refine ⟨rfl, isScriptStr_of_len (by simp), ?_, isVariantStr_of_len (by simp), ?_⟩
        · unfold isRegionStr
          rw [Bool.or_eq_false_iff, Bool.and_eq_false_iff, Bool.and_eq_false_iff]
          constructor
          · right
            simp only [List.all_cons, Bool.and_eq_false_iff]
            right
            left
            rw [← Bool.not_eq_true, isAlphaB_iff]
            rw [isDigitB_iff] at hd
            simp only [not_or, not_and]
            omega
          · left
            simp
        · have hund : ¬(lowerS ([a, d] : Str) = UND) := by
            intro hc
            have hlen2 : (lowerS ([a, d] : Str)).length = UND.length := by rw [hc]
            rw [lowerS_length] at hlen2
            simp only [List.length_cons, List.length_nil] at hlen2
            exact absurd hlen2 (by decide)
          have hlang : ¬(isLanguageStr (lowerS ([a, d] : Str)) = true) := by
            intro hc
            unfold isLanguageStr at hc
            simp only [Bool.and_eq_true, decide_eq_true_eq, List.all_eq_true] at hc
            have hdm : lowerB d ∈ lowerS ([a, d] : Str) := by
              unfold lowerS
              simp
            have halpha := hc.2 (lowerB d) hdm
            rw [isAlphaB_iff] at halpha
            rw [isDigitB_iff] at hd
            rw [lowerB_fix_of_digit (by rw [isDigitB_iff]; omega)] at halpha
            omega
          simp only [parseLanguage]
          rw [if_neg hund, if_neg hlang]

theorem extStart_not_subtag {s : Str} (h : isExtStart s = true) :
    isScriptStr s = false ∧ isRegionStr s = false ∧ isVariantStr s = false := by
  unfold isExtStart at h
  cases s with
  | nil => cases h
  | cons b t =>
    cases t with
    | cons _ _ => cases h
    | nil =>
      exact ⟨isScriptStr_of_len (by simp), isRegionStr_of_len (by simp) (by simp),
        isVariantStr_of_len (by simp)⟩

/-! ### Reparsing a canonical Subtags serialization -/

theorem canVariants_facts {vs : List Str} (h : canVariants vs = true) :
    (∀ v ∈ vs, isVariantStr v = true ∧ lowerS v = v) ∧
      List.Pairwise (fun a b => strLt a b = true) vs := by
  unfold canVariants at h
  rw [Bool.and_eq_true, List.all_eq_true, pairwiseB_iff] at h
  refine ⟨fun v hv => ?_, h.2⟩
  have := h.1 v hv
  simp only [Bool.and_eq_true, beq_iff_eq] at this
  exact this

theorem langTail_vars (strict : Bool) :
    ∀ (vars1 : List Str) (cs cr : Bool) (lang scr reg : Option Str)
      (vars0 rest : List Str),
      (∀ v ∈ vars1, isVariantStr v = true ∧ lowerS v = v) →
      List.Pairwise (fun a b => strLt a b = true) (vars0 ++ vars1) →
      stopCond strict rest →
      langTail strict cs cr lang scr reg vars0 (vars1 ++ rest) =
        .ok (⟨lang, scr, reg, vars0 ++ vars1⟩, rest) := by
  intro vars1
  induction vars1 with
  | nil =>
    intro cs cr lang scr reg vars0 rest hv hpw hstop
    rw [List.append_nil, List.nil_append]
    rcases hstop with rfl | ⟨hd, tl, rfl, hsh, hrh, hvh, hstrict⟩
    · unfold langTail
      rfl
    · have c1 : ¬((cs && isScriptStr hd) = true) := by
        rw [Bool.and_eq_true]
        intro hc
        rw [hsh] at hc
        cases hc.2
      have c2 : ¬((cr && isRegionStr hd) = true) := by
        rw [Bool.and_eq_true]
        intro hc
        rw [hrh] at hc
        cases hc.2
      have c3 : ¬(isVariantStr hd = true) := by
        rw [hvh]
        simp
      have c4 : ¬((strict && !(isExtStart hd)) = true) := by
        rw [Bool.and_eq_true]
        intro hc
        rw [hstrict hc.1] at hc
        cases hc.2
      unfold langTail
      rw [if_neg c1, if_neg c2, if_neg c3, if_neg c4]
  | cons v vs ih =>
    intro cs cr lang scr reg vars0 rest hv hpw hstop
    have hvf := hv v (List.mem_cons_self _ _)
    have c1 : ¬((cs && isScriptStr v) = true) := by
      rw [Bool.and_eq_true]
      intro hc
      rw [variant_not_script hvf.1] at hc
      cases hc.2
    have c2 : ¬((cr && isRegionStr v) = true) := by
      rw [Bool.and_eq_true]
      intro hc
      rw [variant_not_region hvf.1] at hc
      cases hc.2
    have hlt : ∀ y ∈ vars0, strLt y v = true := by
      rw [List.pairwise_append] at hpw
      intro y hy
      exact hpw.2.2 y hy v (List.mem_cons_self _ _)
    rw [List.cons_append]
    unfold langTail
    rw [if_neg c1, if_neg c2, if_pos hvf.1, hvf.2, insSkip_append hlt]
    have hpw2 : List.Pairwise (fun a b => strLt a b = true) ((vars0 ++ [v]) ++ vs) := by
      rw [List.append_assoc]
      exact hpw
    have := ih false false lang scr reg (vars0 ++ [v]) rest
      (fun x hx => hv x (List.mem_cons_of_mem _ hx)) hpw2 hstop
    rw [this]
    rw [List.append_assoc]
    rfl

theorem canScript_facts {s : Str} (h : canScript (some s) = true) :
    isScriptStr s = true ∧ normScript s = s := by
  unfold canScript at h
  simp only [Bool.and_eq_true, beq_iff_eq] at h
  exact h

theorem canRegion_facts {s : Str} (h : canRegion (some s) = true) :
    isRegionStr s = true ∧ normRegion s = s := by
  unfold canRegion at h
  simp only [Bool.and_eq_true, beq_iff_eq] at h
  exact h

theorem langTail_full (strict : Bool) (lang scr reg : Option Str)
    (vars rest : List Str) (hs : canScript scr = true) (hr : canRegion reg = true)
    (hv : canVariants vars = true) (hstop : stopCond strict rest) :
    langTail strict true true lang none none []
      (scr.toList ++ (reg.toList ++ (vars ++ rest))) =
      .ok (⟨lang, scr, reg, vars⟩, rest) := by
  obtain ⟨hvf, hvp⟩ := canVariants_facts hv
  cases scr with
  | none =>
    cases reg with
    | none =>
      simpa using langTail_vars strict vars true true lang none none [] rest hvf
        (by simpa using hvp) hstop
    | some r =>
      obtain ⟨hr1, hr2⟩ := canRegion_facts hr
      have c1 : ¬((true && isScriptStr r) = true) := by
        rw [Bool.and_eq_true]
        intro hc
        rw [region_not_script hr1] at hc
        cases hc.2
      simp only [Option.toList, List.nil_append, List.cons_append, List.singleton_append]
      unfold langTail
      rw [if_neg c1, if_pos (by rw [hr1]; rfl), hr2]
      simpa using langTail_vars strict vars false false lang none (some r) [] rest hvf
        (by simpa using hvp) hstop
  | some sc =>
    obtain ⟨hs1, hs2⟩ := canScript_facts hs
    simp only [Option.toList, List.cons_append, List.singleton_append]
    unfold langTail
    rw [if_pos (by rw [hs1]; rfl), hs2]
    cases reg with
    | none =>
      simpa using langTail_vars strict vars false true lang (some sc) none [] rest hvf
        (by simpa using hvp) hstop
    | some r =>
      obtain ⟨hr1, hr2⟩ := canRegion_facts hr
      have c1 : ¬((false && isScriptStr r) = true) := by simp
      simp only [Option.toList, List.nil_append, List.cons_append, List.singleton_append]
      unfold langTail
      rw [if_neg c1, if_pos (by rw [hr1]; rfl), hr2]
      simpa using langTail_vars strict vars false false lang (some sc) (some r) [] rest hvf
        (by simpa using hvp) hstop

theorem parseLanguage_ser {lang : Option Str} (h : canLanguage lang = true) :
    parseLanguage (serLang lang) = .ok lang := by
  cases lang with
  | none => decide
  | some l =>
    unfold canLanguage at h
    simp only [Bool.and_eq_true, beq_iff_eq, Bool.not_eq_true',
      beq_eq_false_iff_ne, ne_eq] at h
    obtain ⟨⟨hl, hfix⟩, hund⟩ := h
    simp only [parseLanguage, serLang]
    rw [hfix]
    rw [if_neg hund, if_pos hl]

theorem lid_canonical_parts {lid : LanguageIdentifier} (h : lid.canonical = true) :
    canLanguage lid.language = true ∧ canScript lid.script = true ∧
      canRegion lid.region = true ∧ canVariants lid.variants = true := by
  unfold LanguageIdentifier.canonical at h
  simp only [Bool.and_eq_true] at h
  exact ⟨h.1.1.1, h.1.1.2, h.1.2, h.2⟩

theorem parseLangIdSegs_ser (lid : LanguageIdentifier) (rest : List Str)
    (hcan : lid.canonical = true) (hstop : stopCond true rest) :
    parseLangIdSegs (lid.toSegs ++ rest) = .ok (lid, rest) := by
  obtain ⟨hl, hs, hr, hv⟩ := lid_canonical_parts hcan
  unfold LanguageIdentifier.toSegs
  rw [List.cons_append]
  simp only [parseLangIdSegs, parseLanguage_ser hl]
  rw [List.append_assoc, List.append_assoc]
  exact langTail_full true lid.language lid.script lid.region lid.variants rest hs hr hv hstop

/-! ### Reparsing canonical extension runs -/

theorem ukeyFromStr_none {s : Str} (h : s.length ≠ 2) : ukeyFromStr s = none := by
  unfold ukeyFromStr
  have hl : (lowerS s).length = s.length := lowerS_length s
  rw [if_neg, if_neg, if_neg]
  · intro he
    apply h
    rw [← hl, he]
    rfl
  · intro he
    apply h
    rw [← hl, he]
    rfl
  · intro he
    apply h
    rw [← hl, he]
    rfl

theorem ukeyStr_len (k : UnicodeExtensionKey) : (ukeyStr k).length = 2 := by
  cases k <;> rfl

theorem ukeyFromStr_ukeyStr (k : UnicodeExtensionKey) :
    ukeyFromStr (ukeyStr k) = some k := by
  cases k <;> decide

theorem isUValue_ukeyStr (k : UnicodeExtensionKey) : isUValue (ukeyStr k) = false := by
  cases k <;> decide

theorem isUValue_len2 {s : Str} (h : isUValue s = true) : s.length ≠ 2 := by
  unfold isUValue at h
  simp only [Bool.and_eq_true, decide_eq_true_eq] at h
  omega

theorem parseURun_ats :
    ∀ (ats1 : List Str) (ks0 : List (UnicodeExtensionKey × Option Str))
      (ats0 rest : List Str),
      (∀ a ∈ ats1, isUValue a = true ∧ lowerS a = a) →
      List.Pairwise (fun a b => strLt a b = true) (ats0 ++ ats1) →
      parseURun ks0 ats0 (ats1 ++ rest) = parseURun ks0 (ats0 ++ ats1) rest := by
  intro ats1
  induction ats1 with
  | nil =>
    intro ks0 ats0 rest _ _
    rw [List.nil_append, List.append_nil]
  | cons a as ih =>
    intro ks0 ats0 rest hv hpw
    have haf := hv a (List.mem_cons_self _ _)
    have hlen : a.length ≠ 2 := isUValue_len2 haf.1
    have hlt : ∀ y ∈ ats0, strLt y a = true := by
      rw [List.pairwise_append] at hpw
      intro y hy
      exact hpw.2.2 y hy a (List.mem_cons_self _ _)
    have hpw2 : List.Pairwise (fun x y => strLt x y = true) ((ats0 ++ [a]) ++ as) := by
      rw [List.append_assoc]
      exact hpw
    have step : parseURun ks0 ats0 ((a :: as) ++ rest) =
        parseURun ks0 (ats0 ++ [a]) (as ++ rest) := by
      generalize hZ : parseURun ks0 (ats0 ++ [a]) (as ++ rest) = Z
      rw [List.cons_append]
      unfold parseURun
      simp only [ukeyFromStr_none hlen]
      rw [if_pos haf.1, haf.2, insBy_append hlt]
      exact hZ
    rw [step, ih ks0 (ats0 ++ [a]) rest (fun x hx => hv x (List.mem_cons_of_mem _ hx)) hpw2,
      List.append_assoc]
    rfl

theorem kwSegs_cons (k : UnicodeExtensionKey) (v : Option Str)
    (ks : List (UnicodeExtensionKey × Option Str)) :
    kwSegs ((k, v) :: ks) =
      (match v with
       | none => [ukeyStr k]
       | some x => [ukeyStr k, x]) ++ kwSegs ks := by
  unfold kwSegs
  rw [List.map_cons, List.flatten_cons]

theorem parseURun_keys :
    ∀ (ks1 ks0 : List (UnicodeExtensionKey × Option Str)) (ats : List Str),
      (∀ p ∈ ks1,
        match p.2 with
        | none => True
        | some v => isUValue v = true ∧ lowerS v = v) →
      List.Pairwise (fun p q => ukRank p.1 < ukRank q.1) (ks0 ++ ks1) →
      parseURun ks0 ats (kwSegs ks1) = .ok (ks0 ++ ks1, ats) := by
  intro ks1
  induction ks1 with
  | nil =>
    intro ks0 ats _ _
    rw [List.append_nil]
    rfl
  | cons p ks ih =>
    intro ks0 ats hv hpw
    obtain ⟨k, v⟩ := p
    have hlt : ∀ y ∈ ks0, (decide (ukRank y.1 < ukRank (k, v).1)) = true := by
      rw [List.pairwise_append] at hpw
      intro y hy
      simp only [decide_eq_true_eq]
      exact hpw.2.2 y hy (k, v) (List.mem_cons_self _ _)
    cases v with
    | some x =>
      have hxf := hv (k, some x) (List.mem_cons_self _ _)
      simp only at hxf
      have hpw2 : List.Pairwise (fun p q => ukRank p.1 < ukRank q.1)
          ((ks0 ++ [(k, some x)]) ++ ks) := by
        rw [List.append_assoc]
        exact hpw
      have step : parseURun ks0 ats (kwSegs ((k, some x) :: ks)) =
          parseURun (ks0 ++ [(k, some x)]) ats (kwSegs ks) := by
        generalize hZ : parseURun (ks0 ++ [(k, some x)]) ats (kwSegs ks) = Z
        rw [kwSegs_cons]
        simp only [List.cons_append, List.singleton_append]
        unfold parseURun
        simp only [ukeyFromStr_ukeyStr]
        rw [if_pos hxf.1, hxf.2, insBy_append hlt]
        exact hZ
      rw [step, ih (ks0 ++ [(k, some x)]) ats
        (fun q hq => hv q (List.mem_cons_of_mem _ hq)) hpw2, List.append_assoc]
      rfl
    | none =>
      cases ks with
      | nil =>
        rw [kwSegs_cons]
        rw [show ([ukeyStr k] ++ kwSegs [] : List Str) = [ukeyStr k] from rfl]
        unfold parseURun
        simp only [ukeyFromStr_ukeyStr]
        rw [insBy_append hlt]
      | cons q ks2 =>
        obtain ⟨k2, v2⟩ := q
        have hk2 : kwSegs ((k2, v2) :: ks2) =
            ukeyStr k2 ::
              ((match v2 with
                | none => ([] : List Str)
                | some x => [x]) ++ kwSegs ks2) := by
          rw [kwSegs_cons]
          cases v2 <;> rfl
        have hpw2 : List.Pairwise (fun p q => ukRank p.1 < ukRank q.1)
            ((ks0 ++ [(k, none)]) ++ (k2, v2) :: ks2) := by
          rw [List.append_assoc]
          exact hpw
        have step : parseURun ks0 ats (kwSegs ((k, none) :: (k2, v2) :: ks2)) =
            parseURun (ks0 ++ [(k, none)]) ats (kwSegs ((k2, v2) :: ks2)) := by
          generalize hZ : parseURun (ks0 ++ [(k, none)]) ats (kwSegs ((k2, v2) :: ks2)) = Z
          rw [kwSegs_cons]
          simp only [List.singleton_append]
          rw [hk2]
          unfold parseURun
          simp only [ukeyFromStr_ukeyStr]
          rw [if_neg (by rw [isUValue_ukeyStr]; intro hc; cases hc), insBy_append hlt]
          rw [← hk2]
          exact hZ
        rw [step, ih (ks0 ++ [(k, none)]) ats
          (fun q hq => hv q (List.mem_cons_of_mem _ hq)) hpw2, List.append_assoc]
        rfl

theorem canUnicode_facts {ks : List (UnicodeExtensionKey × Option Str)}
    (h : canUnicode ks = true) :
    (∀ p ∈ ks,
      match p.2 with
      | none => True
      | some v => isUValue v = true ∧ lowerS v = v) ∧
      List.Pairwise (fun p q => ukRank p.1 < ukRank q.1) ks := by
  unfold canUnicode at h
  rw [Bool.and_eq_true, List.all_eq_true, pairwiseB_iff] at h
  constructor
  · intro p hp
    have := h.1 p hp
    cases hv : p.2 with
    | none => trivial
    | some v =>
      rw [hv] at this
      simp only [Bool.and_eq_true, beq_iff_eq] at this
      exact this
  · exact h.2.imp (fun hab => by simpa using hab)

theorem canAttrs_facts {ats : List Str} (h : canAttrs ats = true) :
    (∀ a ∈ ats, isUValue a = true ∧ lowerS a = a) ∧
      List.Pairwise (fun a b => strLt a b = true) ats := by
  unfold canAttrs at h
  rw [Bool.and_eq_true, List.all_eq_true, pairwiseB_iff] at h
  refine ⟨fun a ha => ?_, h.2⟩
  have := h.1 a ha
  simp only [Bool.and_eq_true, beq_iff_eq] at this
  exact this

theorem parseURun_ser {ks : List (UnicodeExtensionKey × Option Str)} {ats : List Str}
    (hk : canUnicode ks = true) (ha : canAttrs ats = true) :
    parseURun [] [] (uniSegs ks ats) = .ok (ks, ats) := by
  obtain ⟨haf, hap⟩ := canAttrs_facts ha
  obtain ⟨hkf, hkp⟩ := canUnicode_facts hk
  have h1 : uniSegs ks ats = ats ++ kwSegs ks := rfl
  rw [h1, parseURun_ats ats [] [] (kwSegs ks) haf (by simpa using hap)]
  rw [List.nil_append]
  have := parseURun_keys ks [] ats hkf (by simpa using hkp)
  rw [List.nil_append] at this
  exact this

theorem canPriv_facts {ps : List Str} (h : canPriv ps = true) :
    (∀ t ∈ ps, isPrivToken t = true ∧ lowerS t = t ∧ isRecStart t = false) ∧
      List.Pairwise (fun a b => strLt a b = true) ps := by
  unfold canPriv at h
  rw [Bool.and_eq_true, List.all_eq_true, pairwiseB_iff] at h
  refine ⟨fun t ht => ?_, h.2⟩
  have := h.1 t ht
  simp only [Bool.and_eq_true, beq_iff_eq, Bool.not_eq_true'] at this
  exact ⟨this.1.1, this.1.2, this.2⟩

theorem parsePrivRun_ser :
    ∀ (ps1 ps0 : List Str),
      (∀ t ∈ ps1, isPrivToken t = true ∧ lowerS t = t) →
      List.Pairwise (fun a b => strLt a b = true) (ps0 ++ ps1) →
      parsePrivRun ps0 ps1 = .ok (ps0 ++ ps1) := by
  intro ps1
  induction ps1 with
  | nil =>
    intro ps0 _ _
    rw [List.append_nil]
    rfl
  | cons t ts ih =>
    intro ps0 hv hpw
    have htf := hv t (List.mem_cons_self _ _)
    have hlt : ∀ y ∈ ps0, strLt y t = true := by
      rw [List.pairwise_append] at hpw
      intro y hy
      exact hpw.2.2 y hy t (List.mem_cons_self _ _)
    unfold parsePrivRun
    rw [if_pos htf.1, htf.2, insBy_append hlt]
    have hpw2 : List.Pairwise (fun a b => strLt a b = true) ((ps0 ++ [t]) ++ ts) := by
      rw [List.append_assoc]
      exact hpw
    show parsePrivRun (ps0 ++ [t]) ts = _
    rw [ih (ps0 ++ [t]) (fun x hx => hv x (List.mem_cons_of_mem _ hx)) hpw2]
    rw [List.append_assoc]
    rfl

theorem fieldSegs_cons (k v : Str) (fs : List (Str × Str)) :
    fieldSegs ((k, v) :: fs) = k :: v :: fieldSegs fs := by
  unfold fieldSegs
  rw [List.map_cons, List.flatten_cons]
  rfl

theorem canTFields_facts {fs : List (Str × Str)} (h : canTFields fs = true) :
    (∀ p ∈ fs, isTKey p.1 = true ∧ lowerS p.1 = p.1 ∧ isUValue p.2 = true ∧
      lowerS p.2 = p.2) ∧
      List.Pairwise (fun p q => strLt p.1 q.1 = true) fs := by
  unfold canTFields at h
  rw [Bool.and_eq_true, List.all_eq_true, pairwiseB_iff] at h
  refine ⟨fun p hp => ?_, h.2⟩
  have := h.1 p hp
  simp only [Bool.and_eq_true, beq_iff_eq] at this
  exact ⟨this.1.1.1, this.1.1.2, this.1.2, this.2⟩

theorem parseTFields_ser :
    ∀ (fs1 fs0 : List (Str × Str)),
      (∀ p ∈ fs1, isTKey p.1 = true ∧ lowerS p.1 = p.1 ∧ isUValue p.2 = true ∧
        lowerS p.2 = p.2) →
      List.Pairwise (fun p q => strLt p.1 q.1 = true) (fs0 ++ fs1) →
      parseTFields fs0 (fieldSegs fs1) = .ok (fs0 ++ fs1) := by
  intro fs1
  induction fs1 with
  | nil =>
    intro fs0 _ _
    rw [List.append_nil]
    rfl
  | cons p fs ih =>
    intro fs0 hv hpw
    obtain ⟨k, v⟩ := p
    have hpf := hv (k, v) (List.mem_cons_self _ _)
    have hlt : ∀ y ∈ fs0, strLt y.1 (k, v).1 = true := by
      rw [List.pairwise_append] at hpw
      intro y hy
      exact hpw.2.2 y hy (k, v) (List.mem_cons_self _ _)
    rw [fieldSegs_cons]
    unfold parseTFields
    rw [if_pos hpf.1, if_pos hpf.2.2.1, hpf.2.1, hpf.2.2.2, insBy_append hlt]
    have hpw2 : List.Pairwise (fun p q => strLt p.1 q.1 = true)
        ((fs0 ++ [(k, v)]) ++ fs) := by
      rw [List.append_assoc]
      exact hpw
    show parseTFields (fs0 ++ [(k, v)]) (fieldSegs fs) = _
    rw [ih (fs0 ++ [(k, v)]) (fun x hx => hv x (List.mem_cons_of_mem _ hx)) hpw2]
    rw [List.append_assoc]
    rfl

theorem parseTLangSegs_ser (tl : Option LanguageIdentifier) (rest : List Str)
    (hcan : (match tl with
             | none => true
             | some lid => lid.canonical) = true)
    (hrest : rest = [] ∨ ∃ k t, rest = k :: t ∧ isTKey k = true) :
    parseTLangSegs (tlangSegs tl ++ rest) = (tl, rest) := by
  cases tl with
  | none =>
    show parseTLangSegs ([] ++ rest) = (none, rest)
    rw [List.nil_append]
    rcases hrest with rfl | ⟨k, t, rfl, hk⟩
    · rfl
    · obtain ⟨_, _, _, _, hpl⟩ := tkey_facts hk
      unfold parseTLangSegs
      simp only [hpl]
  | some lid =>
    show parseTLangSegs (lid.toSegs ++ rest) = (some lid, rest)
    obtain ⟨hl, hs, hr, hv⟩ := lid_canonical_parts hcan
    unfold LanguageIdentifier.toSegs
    rw [List.cons_append]
    unfold parseTLangSegs
    simp only [parseLanguage_ser hl]
    rw [List.append_assoc, List.append_assoc]
    have hstop : stopCond false rest := by
      rcases hrest with rfl | ⟨k, t, rfl, hk⟩
      · exact Or.inl rfl
      · obtain ⟨_, hsk, hrk, hvk, _⟩ := tkey_facts hk
        exact Or.inr ⟨k, t, rfl, hsk, hrk, hvk, fun hc => by cases hc⟩
    rw [langTail_full false lid.language lid.script lid.region lid.variants rest hs hr hv hstop]

theorem parseTransformRun_ser (t : Transform) (hcan : t.canonical = true) :
    parseTransformRun t.toSegs = .ok t := by
  unfold Transform.canonical at hcan
  rw [Bool.and_eq_true] at hcan
  obtain ⟨htl, htf⟩ := hcan
  obtain ⟨hff, hfp⟩ := canTFields_facts htf
  have hts : t.toSegs = tlangSegs t.tlang ++ fieldSegs t.tfields := by
    unfold Transform.toSegs tlangSegs fieldSegs
    cases t.tlang <;> rfl
  have hrest : fieldSegs t.tfields = [] ∨
      ∃ k tt, fieldSegs t.tfields = k :: tt ∧ isTKey k = true := by
    cases hfs : t.tfields with
    | nil => exact Or.inl rfl
    | cons p fs =>
      obtain ⟨k, v⟩ := p
      right
      refine ⟨k, v :: fieldSegs fs, fieldSegs_cons k v fs, ?_⟩
      exact (hff (k, v) (by rw [hfs]; exact List.mem_cons_self _ _)).1
  unfold parseTransformRun
  rw [hts]
  simp only [parseTLangSegs_ser t.tlang (fieldSegs t.tfields) htl hrest]
  have := parseTFields_ser t.tfields [] hff (by simpa using hfp)
  rw [List.nil_append] at this
  simp only [this]

/-! ### Reparsing the canonical extension tail -/

theorem parseExtSegs_one (fuel : Nat) (seen : List Nat) (m : ExtensionsMap)
    (b : Nat) (rest : List Str) :
    parseExtSegs (fuel + 1) seen m ([b] :: rest) =
      (if isAlphaB b then
        if seen.contains (lowerB b) then .error .duplicateExtension
        else if lowerB b = 117 then
          match parseURun m.unicode m.attributes
              (rest.takeWhile (fun s => !(isExtStart s))) with
          | .ok (ks, ats) =>
            parseExtSegs fuel (lowerB b :: seen) { m with unicode := ks, attributes := ats }
              (rest.dropWhile (fun s => !(isExtStart s)))
          | .error e => .error e
        else if lowerB b = 116 then
          match parseTransformRun (rest.takeWhile (fun s => !(isExtStart s))) with
          | .ok t =>
            parseExtSegs fuel (lowerB b :: seen) { m with transform := t }
              (rest.dropWhile (fun s => !(isExtStart s)))
          | .error e => .error e
        else if lowerB b = 120 then
          match parsePrivRun m.priv (rest.takeWhile (fun s => !(isRecStart s))) with
          | .ok ps =>
            parseExtSegs fuel (lowerB b :: seen) { m with priv := ps }
              (rest.dropWhile (fun s => !(isRecStart s)))
          | .error e => .error e
        else
          match insOther (lowerB b) (rest.takeWhile (fun s => !(isExtStart s))) m.other with
          | some o2 =>
            parseExtSegs fuel (lowerB b :: seen) { m with other := o2 }
              (rest.dropWhile (fun s => !(isExtStart s)))
          | none => .error .duplicateExtension
      else .error .invalidExtension) := rfl

theorem mem_flatten_map {α β : Type} {f : α → List β} {l : List α} {x : β}
    (h : x ∈ (l.map f).flatten) : ∃ p ∈ l, x ∈ f p := by
  rw [List.mem_flatten] at h
  obtain ⟨ys, hys, hx⟩ := h
  rw [List.mem_map] at hys
  obtain ⟨p, hp, rfl⟩ := hys
  exact ⟨p, hp, hx⟩

theorem lid_toSegs_len {lid : LanguageIdentifier} (h : lid.canonical = true) :
    ∀ seg ∈ lid.toSegs, 2 ≤ seg.length := by
  obtain ⟨hl, hs, hr, hv⟩ := lid_canonical_parts h
  intro seg hseg
  unfold LanguageIdentifier.toSegs at hseg
  rcases List.mem_cons.mp hseg with rfl | hseg
  · cases hll : lid.language with
    | none => decide
    | some l =>
      rw [hll] at hl
      unfold canLanguage isLanguageStr at hl
      simp only [Bool.and_eq_true, decide_eq_true_eq] at hl
      exact hl.1.1.1.1
  · rcases List.mem_append.mp hseg with hseg | hseg
    · rcases List.mem_append.mp hseg with hseg | hseg
      · cases hsc : lid.script with
        | none =>
          rw [hsc] at hseg
          cases hseg
        | some sc =>
          rw [hsc] at hseg
          rcases List.mem_singleton.mp hseg with rfl
          rw [hsc] at hs
          obtain ⟨hs1, _⟩ := canScript_facts hs
          unfold isScriptStr at hs1
          simp only [Bool.and_eq_true, beq_iff_eq] at hs1
          omega
      · cases hrg : lid.region with
        | none =>
          rw [hrg] at hseg
          cases hseg
        | some r =>
          rw [hrg] at hseg
          rcases List.mem_singleton.mp hseg with rfl
          rw [hrg] at hr
          obtain ⟨hr1, _⟩ := canRegion_facts hr
          unfold isRegionStr at hr1
          simp only [Bool.or_eq_true, Bool.and_eq_true, beq_iff_eq] at hr1
          rcases hr1 with ⟨h2, _⟩ | ⟨h3, _⟩ <;> omega
    · obtain ⟨hvf, _⟩ := canVariants_facts hv
      have := isVariantStr_len (hvf seg hseg).1
      omega

theorem uniSegs_len {ks : List (UnicodeExtensionKey × Option Str)} {ats : List Str}
    (hk : canUnicode ks = true) (ha : canAttrs ats = true) :
    ∀ seg ∈ uniSegs ks ats, 2 ≤ seg.length := by
  obtain ⟨haf, _⟩ := canAttrs_facts ha
  obtain ⟨hkf, _⟩ := canUnicode_facts hk
  intro seg hseg
  unfold uniSegs at hseg
  rcases List.mem_append.mp hseg with hseg | hseg
  · have := (haf seg hseg).1
    unfold isUValue at this
    simp only [Bool.and_eq_true, decide_eq_true_eq] at this
    omega
  · obtain ⟨p, hp, hx⟩ := mem_flatten_map hseg
    have := hkf p hp
    cases hv : p.2 with
    | none =>
      rw [hv] at hx
      rcases List.mem_singleton.mp hx with rfl
      rw [ukeyStr_len]
    | some v =>
      rw [hv] at hx
      rw [hv] at this
      rcases List.mem_cons.mp hx with rfl | hx
      · rw [ukeyStr_len]
      · rcases List.mem_singleton.mp hx with rfl
        have := this.1
        unfold isUValue at this
        simp only [Bool.and_eq_true, decide_eq_true_eq] at this
        omega

theorem tSegs_len {t : Transform} (h : t.canonical = true) :
    ∀ seg ∈ t.toSegs, 2 ≤ seg.length := by
  unfold Transform.canonical at h
  rw [Bool.and_eq_true] at h
  obtain ⟨htl, htf⟩ := h
  obtain ⟨hff, _⟩ := canTFields_facts htf
  intro seg hseg
  unfold Transform.toSegs at hseg
  rcases List.mem_append.mp hseg with hseg | hseg
  · cases htt : t.tlang with
    | none =>
      rw [htt] at hseg
      cases hseg
    | some lid =>
      rw [htt] at hseg
      rw [htt] at htl
      exact lid_toSegs_len htl seg hseg
  · obtain ⟨p, hp, hx⟩ := mem_flatten_map hseg
    have := hff p hp
    rcases List.mem_cons.mp hx with rfl | hx
    · have hk := this.1
      unfold isTKey at hk
      cases hlp : p.1 with
      | nil => rw [hlp] at hk; cases hk
      | cons a tl =>
        cases tl with
        | nil => rw [hlp] at hk; cases hk
        | cons d tl2 =>
          cases tl2 with
          | cons _ _ => rw [hlp] at hk; cases hk
          | nil => simp
    · rcases List.mem_singleton.mp hx with rfl
      have hv := this.2.2.1
      unfold isUValue at hv
      simp only [Bool.and_eq_true, decide_eq_true_eq] at hv
      omega

theorem notExtStart_of_len {s : Str} (h : 2 ≤ s.length) :
    (!(isExtStart s)) = true := by
  rw [isExtStart_of_len (by omega)]
  rfl

theorem takeWhile_all {p : Str → Bool} {l : List Str} (h : ∀ x ∈ l, p x = true) :
    l.takeWhile p = l ∧ l.dropWhile p = [] := by
  have := takeWhile_append_of (r := []) h (fun hd tl heq => by cases heq)
  rw [List.append_nil] at this
  exact this

theorem step_rest_split {p : Str → Bool} {body rest : List Str}
    (hbody : ∀ x ∈ body, p x = true)
    (hrest : rest = [] ∨ ∃ hd tl, rest = hd :: tl ∧ p hd = false) :
    (body ++ rest).takeWhile p = body ∧ (body ++ rest).dropWhile p = rest := by
  refine takeWhile_append_of hbody ?_
  intro hd tl heq
  rcases hrest with rfl | ⟨hd2, tl2, heq2, hp2⟩
  · cases heq
  · rw [heq2] at heq
    injection heq with e1 e2
    rw [← e1]
    exact hp2

theorem extStart_stop {rest : List Str}
    (hrest : rest = [] ∨ ∃ hd tl, rest = hd :: tl ∧ isExtStart hd = true) :
    rest = [] ∨ ∃ hd tl, rest = hd :: tl ∧ (!(isExtStart hd)) = false := by
  rcases hrest with rfl | ⟨hd, tl, rfl, hext⟩
  · exact Or.inl rfl
  · exact Or.inr ⟨hd, tl, rfl, by rw [hext]; rfl⟩

theorem stepT (fuel : Nat) (seen : List Nat) (m : ExtensionsMap) (t : Transform)
    (rest : List Str)
    (hseen : seen.contains 116 = false)
    (hcan : t.canonical = true)
    (hrest : rest = [] ∨ ∃ hd tl, rest = hd :: tl ∧ isExtStart hd = true) :
    parseExtSegs (fuel + 1) seen m ([116] :: (t.toSegs ++ rest)) =
      parseExtSegs fuel (116 :: seen) { m with transform := t } rest := by
  have hsplit := step_rest_split (p := fun s => !(isExtStart s))
    (fun x hx => notExtStart_of_len (tSegs_len hcan x hx)) (extStart_stop hrest)
  rw [parseExtSegs_one]
  rw [(by decide : lowerB 116 = 116)]
  rw [if_pos (by decide : isAlphaB 116 = true)]
  rw [if_neg (by intro hc; rw [hseen] at hc; cases hc)]
  rw [if_neg (by decide : ¬((116 : Nat) = 117))]
  rw [if_pos rfl]
  rw [hsplit.1, hsplit.2]
  simp only [parseTransformRun_ser t hcan]

theorem stepU (fuel : Nat) (seen : List Nat) (m : ExtensionsMap)
    (ks : List (UnicodeExtensionKey × Option Str)) (ats : List Str) (rest : List Str)
    (hseen : seen.contains 117 = false)
    (hk : canUnicode ks = true) (ha : canAttrs ats = true)
    (hm1 : m.unicode = []) (hm2 : m.attributes = [])
    (hrest : rest = [] ∨ ∃ hd tl, rest = hd :: tl ∧ isExtStart hd = true) :
    parseExtSegs (fuel + 1) seen m ([117] :: (uniSegs ks ats ++ rest)) =
      parseExtSegs fuel (117 :: seen) { m with unicode := ks, attributes := ats } rest := by
  have hsplit := step_rest_split (p := fun s => !(isExtStart s))
    (fun x hx => notExtStart_of_len (uniSegs_len hk ha x hx)) (extStart_stop hrest)
  rw [parseExtSegs_one]
  rw [(by decide : lowerB 117 = 117)]
  rw [if_pos (by decide : isAlphaB 117 = true)]
  rw [if_neg (by intro hc; rw [hseen] at hc; cases hc)]
  rw [if_pos rfl]
  rw [hsplit.1, hsplit.2, hm1, hm2]
  simp only [parseURun_ser hk ha]

theorem stepX (fuel : Nat) (seen : List Nat) (m : ExtensionsMap) (ps : List Str)
    (hseen : seen.contains 120 = false)
    (hp : canPriv ps = true) (hm : m.priv = []) :
    parseExtSegs (fuel + 1) seen m ([120] :: ps) =
      parseExtSegs fuel (120 :: seen) { m with priv := ps } [] := by
  obtain ⟨hpf, hpp⟩ := canPriv_facts hp
  have hsplit := takeWhile_all (p := fun s => !(isRecStart s))
    (fun x hx => by
      show (!(isRecStart x)) = true
      rw [(hpf x hx).2.2]
      rfl)
  rw [parseExtSegs_one]
  rw [(by decide : lowerB 120 = 120)]
  rw [if_pos (by decide : isAlphaB 120 = true)]
  rw [if_neg (by intro hc; rw [hseen] at hc; cases hc)]
  rw [if_neg (by decide : ¬((120 : Nat) = 117))]
  rw [if_neg (by decide : ¬((120 : Nat) = 116))]
  rw [if_pos rfl]
  rw [hsplit.1, hsplit.2, hm]
  have := parsePrivRun_ser ps [] (fun x hx => ⟨(hpf x hx).1, (hpf x hx).2.1⟩)
    (by simpa using hpp)
  rw [List.nil_append] at this
  simp only [this]

theorem lower_is_alpha {c : Nat} (h : isLowerB c = true) : isAlphaB c = true := by
  unfold isAlphaB
  rw [h]
  simp

theorem insOther_append {c : Nat} {vals : List Str} {os : List (Nat × List Str)}
    (hlt : ∀ p ∈ os, p.1 < c) :
    insOther c vals os = some (os ++ [(c, vals)]) := by
  unfold insOther
  exact insBy_append (fun y hy => by simp only [decide_eq_true_eq]; exact hlt y hy)

theorem stepOther (fuel : Nat) (seen : List Nat) (m : ExtensionsMap)
    (c : Nat) (vals : List Str) (rest : List Str)
    (hc : isLowerB c = true) (h7 : c ≠ 117) (h6 : c ≠ 116) (h0 : c ≠ 120)
    (hseen : seen.contains c = false)
    (hvals : ∀ x ∈ vals, isExtStart x = false)
    (hlt : ∀ p ∈ m.other, p.1 < c)
    (hrest : rest = [] ∨ ∃ hd tl, rest = hd :: tl ∧ isExtStart hd = true) :
    parseExtSegs (fuel + 1) seen m ([c] :: (vals ++ rest)) =
      parseExtSegs fuel (c :: seen) { m with other := m.other ++ [(c, vals)] } rest := by
  have hsplit := step_rest_split (p := fun s => !(isExtStart s))
    (fun x hx => by
      show (!(isExtStart x)) = true
      rw [hvals x hx]
      rfl) (extStart_stop hrest)
  rw [parseExtSegs_one]
  rw [lowerB_fix_of_lower hc]
  rw [if_pos (lower_is_alpha hc)]
  rw [if_neg (by intro hc; rw [hseen] at hc; cases hc)]
  rw [if_neg h7]
  rw [if_neg h6]
  rw [if_neg h0]
  rw [hsplit.1, hsplit.2]
  rw [insOther_append hlt]

theorem canOther_val_facts {os : List (Nat × List Str)} (h : canOther os = true) :
    ∀ p ∈ os, ∀ v ∈ p.2, isExtStart v = false ∧ SEP ∉ v := by
  unfold canOther at h
  rw [Bool.and_eq_true, List.all_eq_true] at h
  intro p hp v hv
  have := h.1 p hp
  simp only [Bool.and_eq_true, List.all_eq_true] at this
  have hval := this.2 v hv
  unfold canOtherVal at hval
  simp only [Bool.and_eq_true, Bool.not_eq_true'] at hval
  refine ⟨hval.1, ?_⟩
  intro hmem
  have : v.contains SEP = true := by
    rw [List.contains_iff_exists_mem_beq]
    exact ⟨SEP, hmem, by simp⟩
  rw [this] at hval
  cases hval.2

theorem contains_false_of {l : List Nat} {a : Nat} (h : ∀ x ∈ l, x ≠ a) :
    l.contains a = false := by
  induction l with
  | nil => rfl
  | cons x xs ih =>
    show ((a == x) || xs.contains a) = false
    rw [ih (fun y hy => h y (List.mem_cons_of_mem _ hy))]
    have hx := h x (List.mem_cons_self _ _)
    simp only [Bool.or_false, beq_eq_false_iff_ne, ne_eq]
    omega

theorem stepOthers :
    ∀ (os : List (Nat × List Str)) (fx : Nat) (seen : List Nat) (m : ExtensionsMap)
      (rest : List Str),
      canOther (m.other ++ os) = true →
      (∀ p ∈ os, seen.contains p.1 = false) →
      (rest = [] ∨ ∃ hd tl, rest = hd :: tl ∧ isExtStart hd = true) →
      parseExtSegs (os.length + fx) seen m (osSegs os ++ rest) =
        parseExtSegs fx ((os.map (fun p => p.1)).reverse ++ seen)
          { m with other := m.other ++ os } rest := by
  intro os
  induction os with
  | nil =>
    intro fx seen m rest _ _ _
    show parseExtSegs (0 + fx) seen m (([] : List Str) ++ rest) = _
    rw [Nat.zero_add, List.nil_append, List.map_nil, List.reverse_nil, List.nil_append,
      List.append_nil]
  | cons p os ih =>
    obtain ⟨c, vals⟩ := p
    intro fx seen m rest hcan hseen hrest
    obtain ⟨hfacts, hpw⟩ := canOther_letter_facts hcan
    have hcf := hfacts (c, vals) (by simp)
    have hvf := canOther_val_facts hcan (c, vals) (by simp)
    have hseg : osSegs ((c, vals) :: os) = ([c] : Str) :: (vals ++ osSegs os) := by
      unfold osSegs
      rw [List.map_cons, List.flatten_cons]
      rfl
    have hlen : ((c, vals) :: os).length + fx = (os.length + fx) + 1 := by
      simp only [List.length_cons]
      omega
    rw [hseg, hlen, List.cons_append, List.append_assoc]
    have hlt : ∀ q ∈ m.other, q.1 < c := by
      rw [List.pairwise_append] at hpw
      intro q hq
      exact hpw.2.2 q hq (c, vals) (List.mem_cons_self _ _)
    have hrest2 : osSegs os ++ rest = [] ∨
        ∃ hd tl, osSegs os ++ rest = hd :: tl ∧ isExtStart hd = true := by
      cases hos : os with
      | nil =>
        show osSegs [] ++ rest = [] ∨ _
        rw [show osSegs [] = ([] : List Str) from rfl, List.nil_append]
        exact hrest
      | cons q os2 =>
        obtain ⟨c2, vals2⟩ := q
        right
        refine ⟨[c2], (vals2 ++ osSegs os2) ++ rest, ?_, ?_⟩
        · rw [show osSegs ((c2, vals2) :: os2) = ([c2] : Str) :: (vals2 ++ osSegs os2) from by
            unfold osSegs
            rw [List.map_cons, List.flatten_cons]
            rfl]
          rw [List.cons_append, List.append_assoc]
        · show isAlphaB c2 = true
          have := hfacts (c2, vals2) (by rw [hos]; simp)
          exact lower_is_alpha this.1
    rw [stepOther (os.length + fx) seen m c vals (osSegs os ++ rest)
      hcf.1 hcf.2.1 hcf.2.2.1 hcf.2.2.2
      (hseen (c, vals) (List.mem_cons_self _ _))
      (fun x hx => (hvf x hx).1) hlt hrest2]
    have hcan2 : canOther ((m.other ++ [(c, vals)]) ++ os) = true := by
      rw [List.append_assoc]
      exact hcan
    have hseen2 : ∀ q ∈ os, (c :: seen).contains q.1 = false := by
      intro q hq
      show ((q.1 == c) || seen.contains q.1) = false
      rw [hseen q (List.mem_cons_of_mem _ hq)]
      rw [List.pairwise_append] at hpw
      have hlt2 : c < q.1 := by
        have := hpw.2.1
        rw [List.pairwise_cons] at this
        exact this.1 q hq
      simp only [Bool.or_false, beq_eq_false_iff_ne, ne_eq]
      omega
    have := ih fx (c :: seen) { m with other := m.other ++ [(c, vals)] } rest
      hcan2 hseen2 hrest
    rw [this]
    rw [List.map_cons, List.reverse_cons, List.append_assoc, List.append_assoc]
    rfl

theorem parseExtSegs_nil (fuel : Nat) (seen : List Nat) (m : ExtensionsMap) :
    parseExtSegs fuel seen m [] = .ok m := by
  cases fuel <;> rfl

theorem canonical_parts {m : ExtensionsMap} (h : m.canonical = true) :
    canUnicode m.unicode = true ∧ canAttrs m.attributes = true ∧
      m.transform.canonical = true ∧ canPriv m.priv = true ∧
      canOther m.other = true := by
  unfold ExtensionsMap.canonical at h
  simp only [Bool.and_eq_true] at h
  exact ⟨h.1.1.1.1, h.1.1.1.2, h.1.1.2, h.1.2, h.2⟩

theorem transform_empty_eq {t : Transform} (h : t.isEmptyT = true) : t = {} := by
  obtain ⟨tl, tf⟩ := t
  unfold Transform.isEmptyT at h
  simp only [Bool.and_eq_true] at h
  obtain ⟨h1, h2⟩ := h
  cases htl : tl with
  | some v => rw [htl] at h1; cases h1
  | none =>
    cases htf : tf with
    | cons a b => rw [htf] at h2; cases h2
    | nil => rfl

theorem of_contains_false {l : List Nat} {a : Nat} (h : l.contains a = false) :
    ∀ x ∈ l, x ≠ a := by
  intro x hx he
  subst he
  have hc : l.contains x = true := by
    rw [List.contains_iff_exists_mem_beq]
    exact ⟨x, hx, by simp⟩
  rw [hc] at h
  cases h

theorem osx_stop (os : List (Nat × List Str)) (ps : List Str)
    (ho : canOther os = true) :
    (osSegs os ++ (if ps.isEmpty then [] else [120] :: ps)) = [] ∨
      ∃ hd tl, (osSegs os ++ (if ps.isEmpty then [] else [120] :: ps)) = hd :: tl ∧
        isExtStart hd = true := by
  cases hos : os with
  | cons q os2 =>
    obtain ⟨c2, vals2⟩ := q
    right
    refine ⟨[c2], (vals2 ++ osSegs os2) ++ (if ps.isEmpty then [] else [120] :: ps),
      ?_, ?_⟩
    · rw [show osSegs ((c2, vals2) :: os2) = ([c2] : Str) :: (vals2 ++ osSegs os2) from by
        unfold osSegs
        rw [List.map_cons, List.flatten_cons]
        rfl]
      rw [List.cons_append, List.append_assoc]
    · show isAlphaB c2 = true
      have := (canOther_letter_facts ho).1 (c2, vals2) (by rw [hos]; simp)
      exact lower_is_alpha this.1
  | nil =>
    rw [show osSegs [] = ([] : List Str) from rfl, List.nil_append]
    by_cases hps : ps.isEmpty = true
    · rw [if_pos hps]
      exact Or.inl rfl
    · rw [if_neg hps]
      exact Or.inr ⟨[120], ps, rfl, by decide⟩

theorem toSegs_decomp (m : ExtensionsMap) :
    m.toSegs =
      (if m.transform.isEmptyT then [] else ([116] : Str) :: m.transform.toSegs) ++
      ((if m.unicode.isEmpty && m.attributes.isEmpty then []
        else ([117] : Str) :: uniSegs m.unicode m.attributes) ++
       (osSegs m.other ++
        (if m.priv.isEmpty then [] else ([120] : Str) :: m.priv))) := by
  unfold ExtensionsMap.toSegs ExtensionsMap.toSeqs osSegs
  by_cases h1 : m.transform.isEmptyT = true <;>
    by_cases h2 : (m.unicode.isEmpty && m.attributes.isEmpty) = true <;>
      by_cases h3 : m.priv.isEmpty = true <;>
        simp [h1, h2, h3]

theorem toSeqs_len (m : ExtensionsMap) :
    m.toSeqs.length =
      (if m.transform.isEmptyT then 0 else 1) +
      ((if m.unicode.isEmpty && m.attributes.isEmpty then 0 else 1) +
       (m.other.length + (if m.priv.isEmpty then 0 else 1))) := by
  unfold ExtensionsMap.toSeqs
  by_cases h1 : m.transform.isEmptyT = true <;>
    by_cases h2 : (m.unicode.isEmpty && m.attributes.isEmpty) = true <;>
      by_cases h3 : m.priv.isEmpty = true <;>
        simp [h1, h2, h3] <;> omega

theorem finishOX (fuel : Nat) (seen : List Nat) (m : ExtensionsMap)
    (os : List (Nat × List Str)) (ps : List Str)
    (hm1 : m.other = []) (hm2 : m.priv = [])
    (hseen120 : seen.contains 120 = false)
    (hseenOs : ∀ p ∈ os, seen.contains p.1 = false)
    (ho : canOther os = true) (hp : canPriv ps = true)
    (hfuel : os.length + (if ps.isEmpty then 0 else 1) ≤ fuel) :
    parseExtSegs fuel seen m
        (osSegs os ++ (if ps.isEmpty then [] else ([120] : Str) :: ps)) =
      .ok { m with other := os, priv := ps } := by
  obtain ⟨f, rfl⟩ : ∃ f, fuel = os.length + f :=
    ⟨fuel - os.length, by omega⟩
  have hco : canOther (m.other ++ os) = true := by
    rw [hm1, List.nil_append]
    exact ho
  have hxstop : (if ps.isEmpty then [] else ([120] : Str) :: ps) = [] ∨
      ∃ hd tl, (if ps.isEmpty then [] else ([120] : Str) :: ps) = hd :: tl ∧
        isExtStart hd = true := by
    by_cases hps : ps.isEmpty = true
    · rw [if_pos hps]
      exact Or.inl rfl
    · rw [if_neg hps]
      exact Or.inr ⟨[120], ps, rfl, by decide⟩
  rw [stepOthers os f seen m _ hco hseenOs hxstop]
  have hseen2 : ((os.map (fun p => p.1)).reverse ++ seen).contains 120 = false := by
    apply contains_false_of
    intro x hx
    rw [List.mem_append, List.mem_reverse, List.mem_map] at hx
    rcases hx with ⟨p, hpmem, rfl⟩ | hx
    · exact ((canOther_letter_facts ho).1 p hpmem).2.2.2
    · exact of_contains_false hseen120 x hx
  by_cases hps : ps.isEmpty = true
  · rw [if_pos hps]
    rw [parseExtSegs_nil]
    have hpse : ps = [] := by
      cases ps with
      | nil => rfl
      | cons a b => cases hps
    rw [hpse, hm1, hm2, List.nil_append]
  · rw [if_neg hps]
    have hf : ∃ f2, f = f2 + 1 := by
      rw [if_neg hps] at hfuel
      exact ⟨f - 1, by omega⟩
    obtain ⟨f2, rfl⟩ := hf
    rw [stepX f2 _ _ ps hseen2 hp (by rw [hm2])]
    rw [parseExtSegs_nil]
    rw [hm1, List.nil_append]

theorem parseExtSegs_toSegs (m : ExtensionsMap) (hm : m.canonical = true)
    (fuel : Nat) (hfuel : m.toSeqs.length ≤ fuel) :
    parseExtSegs fuel [] {} m.toSegs = .ok m := by
  obtain ⟨hu, ha, ht, hp, ho⟩ := canonical_parts hm
  rw [toSegs_decomp, toSeqs_len] at *
  obtain ⟨mu, ma, mt, mp, mo⟩ := m
  dsimp only at hu ha ht hp ho hfuel ⊢
  by_cases h1 : mt.isEmptyT = true <;>
    by_cases h2 : (mu.isEmpty && ma.isEmpty) = true
  · -- t empty, u empty
    rw [if_pos h1, if_pos h2] at hfuel ⊢
    rw [List.nil_append, List.nil_append]
    have hmu : mu = [] := by
      cases mu with
      | nil => rfl
      | cons a b => simp at h2
    have hma : ma = [] := by
      cases ma with
      | nil => rfl
      | cons a b => simp at h2
    have hmt : mt = Transform.mk none [] := transform_empty_eq h1
    rw [hmu, hma, hmt]
    exact finishOX fuel [] {} mo mp rfl rfl rfl
      (fun p hpm => contains_false_of (fun x hx => by cases hx))
      ho hp (by omega)
  · -- t empty, u nonempty
    rw [if_pos h1, if_neg h2] at hfuel ⊢
    rw [List.nil_append, List.cons_append]
    obtain ⟨f1, rfl⟩ : ∃ f1, fuel = f1 + 1 := ⟨fuel - 1, by omega⟩
    rw [stepU f1 [] {} mu ma _ rfl hu ha rfl rfl (osx_stop mo mp ho)]
    have hmt : mt = Transform.mk none [] := transform_empty_eq h1
    rw [hmt]
    exact finishOX f1 [117] _ mo mp rfl rfl (by decide)
      (fun p hpm => contains_false_of (fun x hx => by
        have := (canOther_letter_facts ho).1 p hpm
        cases hx with
        | head => exact (this.2.1).symm
        | tail _ hx2 => cases hx2))
      ho hp (by omega)
  · -- t nonempty, u empty
    rw [if_neg h1, if_pos h2] at hfuel ⊢
    rw [List.nil_append, List.cons_append]
    obtain ⟨f1, rfl⟩ : ∃ f1, fuel = f1 + 1 := ⟨fuel - 1, by omega⟩
    rw [stepT f1 [] {} mt _ rfl ht (osx_stop mo mp ho)]
    have hmu : mu = [] := by
      cases mu with
      | nil => rfl
      | cons a b => simp at h2
    have hma : ma = [] := by
      cases ma with
      | nil => rfl
      | cons a b => simp at h2
    rw [hmu, hma]
    exact finishOX f1 [116] _ mo mp rfl rfl (by decide)
      (fun p hpm => contains_false_of (fun x hx => by
        have := (canOther_letter_facts ho).1 p hpm
        cases hx with
        | head => exact (this.2.2.1).symm
        | tail _ hx2 => cases hx2))
      ho hp (by omega)
  · -- t nonempty, u nonempty
    rw [if_neg h1, if_neg h2] at hfuel ⊢
    rw [List.cons_append]
    obtain ⟨f1, rfl⟩ : ∃ f1, fuel = f1 + 1 := ⟨fuel - 1, by omega⟩
    rw [stepT f1 [] {} mt _ rfl ht (by
      rw [List.cons_append]
      exact Or.inr ⟨[117], _, rfl, by decide⟩)]
    rw [List.cons_append]
    obtain ⟨f2, rfl⟩ : ∃ f2, f1 = f2 + 1 := ⟨f1 - 1, by omega⟩
    rw [stepU f2 [116] _ mu ma _ (by decide) hu ha rfl rfl (osx_stop mo mp ho)]
    exact finishOX f2 [117, 116] _ mo mp rfl rfl (by decide)
      (fun p hpm => contains_false_of (fun x hx => by
        have := (canOther_letter_facts ho).1 p hpm
        cases hx with
        | head => exact (this.2.1).symm
        | tail _ hx2 =>
          cases hx2 with
          | head => exact (this.2.2.1).symm
          | tail _ hx3 => cases hx3))
      ho hp (by omega)

theorem notSep_of_alnum {s : Str} (h : ∀ b ∈ s, isAlnumB b = true) : SEP ∉ s := by
  intro hm
  have := h SEP hm
  rw [isAlnumB_iff] at this
  unfold SEP at this
  omega

theorem alnum_of_alpha {b : Nat} (h : isAlphaB b = true) : isAlnumB b = true := by
  unfold isAlnumB
  rw [h]
  rfl

theorem alnum_of_digit {b : Nat} (h : isDigitB b = true) : isAlnumB b = true := by
  unfold isAlnumB
  rw [h]
  simp

theorem langStr_nosep {s : Str} (h : isLanguageStr s = true) : SEP ∉ s := by
  unfold isLanguageStr at h
  simp only [Bool.and_eq_true, List.all_eq_true, decide_eq_true_eq] at h
  exact notSep_of_alnum (fun b hb => alnum_of_alpha (h.2 b hb))

theorem scriptStr_nosep {s : Str} (h : isScriptStr s = true) : SEP ∉ s := by
  unfold isScriptStr at h
  simp only [Bool.and_eq_true, List.all_eq_true, beq_iff_eq] at h
  exact notSep_of_alnum (fun b hb => alnum_of_alpha (h.2 b hb))

theorem regionStr_nosep {s : Str} (h : isRegionStr s = true) : SEP ∉ s := by
  unfold isRegionStr at h
  simp only [Bool.or_eq_true, Bool.and_eq_true, List.all_eq_true, beq_iff_eq] at h
  rcases h with ⟨_, h⟩ | ⟨_, h⟩
  · exact notSep_of_alnum (fun b hb => alnum_of_alpha (h b hb))
  · exact notSep_of_alnum (fun b hb => alnum_of_digit (h b hb))

theorem variantStr_nosep {s : Str} (h : isVariantStr s = true) : SEP ∉ s := by
  unfold isVariantStr at h
  simp only [Bool.and_eq_true, List.all_eq_true] at h
  exact notSep_of_alnum h.1

theorem uvalue_nosep {s : Str} (h : isUValue s = true) : SEP ∉ s := by
  unfold isUValue at h
  simp only [Bool.and_eq_true, List.all_eq_true] at h
  exact notSep_of_alnum h.2

theorem privtok_nosep {s : Str} (h : isPrivToken s = true) : SEP ∉ s := by
  unfold isPrivToken at h
  simp only [Bool.and_eq_true, List.all_eq_true] at h
  exact notSep_of_alnum h.2

theorem tkey_nosep {s : Str} (h : isTKey s = true) : SEP ∉ s := by
  cases s with
  | nil => cases h
  | cons a t =>
    cases t with
    | nil => cases h
    | cons d t2 =>
      cases t2 with
      | cons _ _ => cases h
      | nil =>
        have h2 : isAlphaB a = true ∧ isDigitB d = true := by
          unfold isTKey at h
          simpa using h
        exact notSep_of_alnum (fun b hb => by
          rcases List.mem_cons.mp hb with rfl | hb2
          · exact alnum_of_alpha h2.1
          · rcases List.mem_cons.mp hb2 with rfl | hb3
            · exact alnum_of_digit h2.2
            · cases hb3)

theorem lid_toSegs_nosep {lid : LanguageIdentifier} (h : lid.canonical = true) :
    ∀ seg ∈ lid.toSegs, SEP ∉ seg := by
  obtain ⟨hl, hs, hr, hv⟩ := lid_canonical_parts h
  intro seg hseg
  unfold LanguageIdentifier.toSegs at hseg
  rcases List.mem_cons.mp hseg with rfl | hseg
  · cases hll : lid.language with
    | none =>
      show SEP ∉ serLang none
      decide
    | some l =>
      rw [hll] at hl
      unfold canLanguage at hl
      simp only [Bool.and_eq_true] at hl
      exact langStr_nosep hl.1.1
  · rcases List.mem_append.mp hseg with hseg | hseg
    · rcases List.mem_append.mp hseg with hseg | hseg
      · cases hsc : lid.script with
        | none =>
          rw [hsc] at hseg
          cases hseg
        | some sc =>
          rw [hsc] at hseg
          rcases List.mem_singleton.mp hseg with rfl
          rw [hsc] at hs
          exact scriptStr_nosep (canScript_facts hs).1
      · cases hrg : lid.region with
        | none =>
          rw [hrg] at hseg
          cases hseg
        | some r =>
          rw [hrg] at hseg
          rcases List.mem_singleton.mp hseg with rfl
          rw [hrg] at hr
          exact regionStr_nosep (canRegion_facts hr).1
    · obtain ⟨hvf, _⟩ := canVariants_facts hv
      exact variantStr_nosep (hvf seg hseg).1

theorem ukeyStr_nosep (k : UnicodeExtensionKey) : SEP ∉ ukeyStr k := by
  cases k <;> decide

theorem tSegs_nosep {t : Transform} (h : t.canonical = true) :
    ∀ seg ∈ t.toSegs, SEP ∉ seg := by
  unfold Transform.canonical at h
  rw [Bool.and_eq_true] at h
  obtain ⟨htl, htf⟩ := h
  obtain ⟨hff, _⟩ := canTFields_facts htf
  intro seg hseg
  unfold Transform.toSegs at hseg
  rcases List.mem_append.mp hseg with hseg | hseg
  · cases htt : t.tlang with
    | none =>
      rw [htt] at hseg
      cases hseg
    | some lid =>
      rw [htt] at hseg
      rw [htt] at htl
      exact lid_toSegs_nosep htl seg hseg
  · obtain ⟨p, hp, hx⟩ := mem_flatten_map hseg
    have := hff p hp
    rcases List.mem_cons.mp hx with rfl | hx
    · exact tkey_nosep this.1
    · rcases List.mem_singleton.mp hx with rfl
      exact uvalue_nosep this.2.2.1

theorem uniSegs_nosep {ks : List (UnicodeExtensionKey × Option Str)} {ats : List Str}
    (hk : canUnicode ks = true) (ha : canAttrs ats = true) :
    ∀ seg ∈ uniSegs ks ats, SEP ∉ seg := by
  obtain ⟨haf, _⟩ := canAttrs_facts ha
  obtain ⟨hkf, _⟩ := canUnicode_facts hk
  intro seg hseg
  unfold uniSegs at hseg
  rcases List.mem_append.mp hseg with hseg | hseg
  · exact uvalue_nosep (haf seg hseg).1
  · obtain ⟨p, hp, hx⟩ := mem_flatten_map hseg
    have := hkf p hp
    cases hv : p.2 with
    | none =>
      rw [hv] at hx
      rcases List.mem_singleton.mp hx with rfl
      exact ukeyStr_nosep p.1
    | some v =>
      rw [hv] at hx
      rw [hv] at this
      rcases List.mem_cons.mp hx with rfl | hx
      · exact ukeyStr_nosep p.1
      · rcases List.mem_singleton.mp hx with rfl
        exact uvalue_nosep this.1

theorem seqLetter_nosep {c : Nat} (h : isAlphaB c = true) : SEP ∉ ([c] : Str) := by
  intro hm
  rcases List.mem_singleton.mp hm with rfl
  rw [isAlphaB_iff] at h
  unfold SEP at h
  omega

theorem toSeqs_letter_alpha {m : ExtensionsMap} (h : m.canonical = true) :
    ∀ p ∈ m.toSeqs, isAlphaB p.1 = true := by
  obtain ⟨hu, ha, ht, hp, ho⟩ := canonical_parts h
  intro p hpm
  unfold ExtensionsMap.toSeqs at hpm
  rcases List.mem_append.mp hpm with hpm | hpm
  · rcases List.mem_append.mp hpm with hpm | hpm
    · rcases List.mem_append.mp hpm with hpm | hpm
      · by_cases h1 : m.transform.isEmptyT = true
        · rw [if_pos h1] at hpm
          cases hpm
        · rw [if_neg h1] at hpm
          rcases List.mem_singleton.mp hpm with rfl
          exact (by decide : isAlphaB 116 = true)
      · by_cases h2 : (m.unicode.isEmpty && m.attributes.isEmpty) = true
        · rw [if_pos h2] at hpm
          cases hpm
        · rw [if_neg h2] at hpm
          rcases List.mem_singleton.mp hpm with rfl
          exact (by decide : isAlphaB 117 = true)
    · exact lower_is_alpha ((canOther_letter_facts ho).1 p hpm).1
  · by_cases h3 : m.priv.isEmpty = true
    · rw [if_pos h3] at hpm
      cases hpm
    · rw [if_neg h3] at hpm
      rcases List.mem_singleton.mp hpm with rfl
      exact (by decide : isAlphaB 120 = true)

theorem extSegs_nosep {m : ExtensionsMap} (h : m.canonical = true) :
    ∀ seg ∈ m.toSegs, SEP ∉ seg := by
  obtain ⟨hu, ha, ht, hp, ho⟩ := canonical_parts h
  intro seg hseg
  unfold ExtensionsMap.toSegs at hseg
  obtain ⟨p, hpm, hx⟩ := mem_flatten_map hseg
  rcases List.mem_cons.mp hx with rfl | hx
  · exact seqLetter_nosep (toSeqs_letter_alpha h p hpm)
  · unfold ExtensionsMap.toSeqs at hpm
    rcases List.mem_append.mp hpm with hpm | hpm
    · rcases List.mem_append.mp hpm with hpm | hpm
      · rcases List.mem_append.mp hpm with hpm | hpm
        · by_cases h1 : m.transform.isEmptyT = true
          · rw [if_pos h1] at hpm
            cases hpm
          · rw [if_neg h1] at hpm
            rcases List.mem_singleton.mp hpm with rfl
            exact tSegs_nosep ht seg hx
        · by_cases h2 : (m.unicode.isEmpty && m.attributes.isEmpty) = true
          · rw [if_pos h2] at hpm
            cases hpm
          · rw [if_neg h2] at hpm
            rcases List.mem_singleton.mp hpm with rfl
            exact uniSegs_nosep hu ha seg hx
      · exact (canOther_val_facts ho p hpm seg hx).2
    · by_cases h3 : m.priv.isEmpty = true
      · rw [if_pos h3] at hpm
        cases hpm
      · rw [if_neg h3] at hpm
        rcases List.mem_singleton.mp hpm with rfl
        obtain ⟨hpf, _⟩ := canPriv_facts hp
        exact privtok_nosep (hpf seg hx).1

theorem len_le_flatten_map (l : List (Nat × List Str)) :
    l.length ≤ ((l.map (fun p => [p.1] :: p.2)).flatten).length := by
  induction l with
  | nil => exact Nat.le_refl 0
  | cons p r ih =>
    rw [List.map_cons, List.flatten_cons, List.length_append, List.length_cons]
    have : ([p.1] :: p.2).length = p.2.length + 1 := by
      rw [List.length_cons]
    rw [this]
    omega

theorem toSeqs_le_toSegs (m : ExtensionsMap) :
    m.toSeqs.length ≤ m.toSegs.length := by
  unfold ExtensionsMap.toSegs
  exact len_le_flatten_map m.toSeqs

theorem extSegs_stop {m : ExtensionsMap} (h : m.canonical = true) :
    stopCond true m.toSegs := by
  cases hseq : m.toSeqs with
  | nil =>
    left
    unfold ExtensionsMap.toSegs
    rw [hseq]
    rfl
  | cons p r =>
    right
    have halpha : isAlphaB p.1 = true :=
      toSeqs_letter_alpha h p (by rw [hseq]; exact List.mem_cons_self _ _)
    have hext : isExtStart [p.1] = true := halpha
    refine ⟨[p.1], p.2 ++ ((r.map (fun q => ([q.1] : Str) :: q.2)).flatten), ?_,
      (extStart_not_subtag hext).1, (extStart_not_subtag hext).2.1,
      (extStart_not_subtag hext).2.2, fun _ => hext⟩
    unfold ExtensionsMap.toSegs
    rw [hseq, List.map_cons, List.flatten_cons, List.cons_append]

theorem locale_canonical_parts {loc : Locale} (h : loc.canonical = true) :
    loc.langid.canonical = true ∧ loc.extensions.canonical = true := by
  unfold Locale.canonical at h
  rw [Bool.and_eq_true] at h
  exact h

theorem to_string_join (loc : Locale) :
    loc.to_string = joinDash (loc.langid.toSegs ++ loc.extensions.toSegs) := by
  unfold Locale.to_string LanguageIdentifier.to_string ExtensionsMap.to_string
  rw [joinDash_append _ _ (by
    unfold LanguageIdentifier.toSegs
    intro hc
    cases hc)]

theorem parse_locale_of_canonical {loc : Locale} (h : loc.canonical = true) :
    parse_locale loc.to_string = .ok loc := by
  obtain ⟨hlc, hec⟩ := locale_canonical_parts h
  have hsplit : splitDash loc.to_string =
      loc.langid.toSegs ++ loc.extensions.toSegs := by
    rw [to_string_join]
    apply splitDash_joinDash
    · intro hc
      rw [List.append_eq_nil] at hc
      obtain ⟨hc1, _⟩ := hc
      unfold LanguageIdentifier.toSegs at hc1
      cases hc1
    · intro p hp
      rcases List.mem_append.mp hp with hp | hp
      · exact lid_toSegs_nosep hlc p hp
      · exact extSegs_nosep hec p hp
  unfold parse_locale
  rw [hsplit]
  rw [parseLangIdSegs_ser loc.langid loc.extensions.toSegs hlc (extSegs_stop hec)]
  show (match parseExtSegs loc.extensions.toSegs.length [] {} loc.extensions.toSegs with
    | .error e => Except.error (LocaleError.parser e)
    | .ok m => Except.ok (⟨loc.langid, m⟩ : Locale)) = .ok loc
  rw [parseExtSegs_toSegs loc.extensions hec loc.extensions.toSegs.length
    (toSeqs_le_toSegs loc.extensions)]

/-- C4: parse-then-serialize is idempotent — whenever `parse_locale s`
succeeds with `loc`, re-parsing the serialization `loc.to_string` succeeds
and yields `loc` itself, and every result of that re-parse serializes to
the same string again
(`parse(parse(s).to_string()).to_string() == parse(s).to_string()`). -/
theorem C4_roundtrip_idempotent (s : Str) (loc : Locale)
    (h : parse_locale s = .ok loc) :
    parse_locale loc.to_string = .ok loc ∧
      ∀ loc2, parse_locale loc.to_string = .ok loc2 →
        loc2.to_string = loc.to_string := by
  have hc := parse_locale_canonical h
  have hre := parse_locale_of_canonical hc
  refine ⟨hre, ?_⟩
  intro loc2 h2
  rw [hre] at h2
  cases h2
  rfl

/-- Witness for C4 at `en-u-hc-h12`. -/
theorem C4_roundtrip_idempotent_witness :
    parse_locale (str "en-u-hc-h12") =
      .ok ⟨⟨some [101, 110], none, none, []⟩,
        ⟨[(.hourCycle, some [104, 49, 50])], [], {}, [], []⟩⟩ ∧
    (parse_locale (Locale.to_string ⟨⟨some [101, 110], none, none, []⟩,
        ⟨[(.hourCycle, some [104, 49, 50])], [], {}, [], []⟩⟩) =
      .ok ⟨⟨some [101, 110], none, none, []⟩,
        ⟨[(.hourCycle, some [104, 49, 50])], [], {}, [], []⟩⟩ ∧
      ∀ loc2,
        parse_locale (Locale.to_string ⟨⟨some [101, 110], none, none, []⟩,
          ⟨[(.hourCycle, some [104, 49, 50])], [], {}, [], []⟩⟩) = .ok loc2 →
        loc2.to_string = Locale.to_string ⟨⟨some [101, 110], none, none, []⟩,
          ⟨[(.hourCycle, some [104, 49, 50])], [], {}, [], []⟩⟩) :=
  ⟨by decide, C4_roundtrip_idempotent (str "en-u-hc-h12") _ (by decide)⟩

end UnicLocale
